import Mathlib

/-!
# Verification of the restato store against its specification

This file gives a shallow embedding, in Lean 4, of the core algorithms of the
restato state container (`src/store/store.js`, `src/store/proxy.js`,
`src/store/utils.js` and their variants) and proves or refutes the frozen
claims about it.

Conventions of the embedding:

* JavaScript closures threading mutable state are rendered as explicit
  state-passing functions (`σ → σ`).
* Reference identity of freshly allocated state snapshots is rendered by a
  numeric `id` drawn from an allocation counter (`nextId`); two snapshots are
  the "same object" exactly when their ids coincide.
* Fallible operations return `Except String _`; the thrown JS `Error` message
  is the `.error` payload.
* The microtask queue (`queueMicrotask` / `Promise.resolve().then`) is an
  explicit FIFO list of first-order task descriptions, each carrying the guard
  value captured by `schedule(getGuard, fn)` at scheduling time.
* `freeze`/`toFreezable` live in `freezable.js`, which is absent from the
  sources (only its callers and tests are present); where needed they are
  modelled from the spec, as flagged by a `Modelled from the spec:` comment.
-/

namespace Restato

/-! ## Middleware chain (`store.js`, `applyMiddleware`, lines 155-167)

A middleware object carries optional `execute` / `asyncExecuted` hooks.  A
hook is user code: it receives the action, the arguments and the `next`
continuation, and may thread an ambient state `σ` (used below to record
traces, or to carry the store itself).  `applyMiddleware` is the direct
translation of

```js
function applyMiddleware(doAction, action, args, isAsync, chain = middlewares[Symbol.iterator]()) {
  const { done, value: mw } = chain.next();
  if (done) {
    doAction(action, args);
  } else {
    const next = (actionMw, argsMw) => {
      const actionToUse = isAsync ? action : actionMw;
      const argsToUse = isAsync ? args : argsMw;
      applyMiddleware(doAction, actionToUse, argsToUse, isAsync, chain);
    };
    ((isAsync ? mw.asyncExecuted : mw.execute) || next)(action, args, next);
  }
}
```

with the iterator rendered as the list of middlewares still to visit.  When a
hook is absent, `(hook || next)(action, args, next)` calls `next` with the
third argument ignored.
-/

/-- The type of a middleware hook: action, args, `next` continuation, state. -/
def MwHookFn (σ α β : Type) : Type := α → β → (α → β → σ → σ) → σ → σ

/-- A middleware object as returned by a middleware factory: optional
`execute` and `asyncExecuted` hooks (`destroy` hooks do not act on the state
modelled here). -/
structure MwObj (σ α β : Type) : Type where
  execute : Option (MwHookFn σ α β)
  asyncExecuted : Option (MwHookFn σ α β)

/-- `applyMiddleware` from `store.js` (lines 155-167): walk the middleware
list; the innermost handler is `doAction`; overrides passed to `next` are
honoured only in the synchronous phase (`isAsync = false`). -/
def applyMiddleware (doAction : α → β → σ → σ) (action : α) (args : β)
    (isAsync : Bool) : List (MwObj σ α β) → σ → σ
  | [], s => doAction action args s
  | mw :: chain, s =>
    let next : α → β → σ → σ := fun actionMw argsMw =>
      applyMiddleware doAction (if isAsync then action else actionMw)
        (if isAsync then args else argsMw) isAsync chain
    (((if isAsync then mw.asyncExecuted else mw.execute)).getD
      (fun a b _ => next a b)) action args next s

/-! ## Claim C4: middleware ordering and short-circuit

User middlewares are modelled as instrumented hooks that append trace events
to the ambient state: middleware `i` records `enter i` when its `execute` is
invoked; if it calls `next` (once, passing the action and args through), it
records `exitMw i` after `next` returns; the innermost handler records
`mutation`.  This is the shape of the middlewares in the repository's own
tests ("calls middlewares in the order they are added", "middleware can stop
action dispatching"). -/

/-- Trace events recorded while a middleware chain runs. -/
inductive MwEvent : Type where
  | enter (i : Nat)
  | exitMw (i : Nat)
  | mutation
deriving DecidableEq, Repr

/-- An instrumented `execute` hook for middleware number `i`: records entry,
then either calls `next` once and records the return, or (when
`callsNext = false`) silently returns without calling `next`. -/
def traceHook (i : Nat) (callsNext : Bool) : MwHookFn (List MwEvent) α β :=
  fun a b next s =>
    let s := s ++ [MwEvent.enter i]
    if callsNext then next a b s ++ [MwEvent.exitMw i] else s

/-- The innermost handler: the actual mutation, recorded in the trace. -/
def traceAction : α → β → List MwEvent → List MwEvent :=
  fun _ _ s => s ++ [MwEvent.mutation]

/-- The middleware list built from a list of `callsNext` flags, numbered from
`start`. -/
def traceMws (start : Nat) : List Bool → List (MwObj (List MwEvent) α β)
  | [] => []
  | b :: bs => ⟨some (traceHook start b), none⟩ :: traceMws (start + 1) bs

/-- The trace the execute phase is expected to produce: middlewares wrap in
registration order; a middleware that does not call `next` cuts the trace
short, and then neither the mutation nor any later middleware appears. -/
def expectedTrace (start : Nat) : List Bool → List MwEvent
  | [] => [MwEvent.mutation]
  | true :: bs => MwEvent.enter start :: (expectedTrace (start + 1) bs ++ [MwEvent.exitMw start])
  | false :: _ => [MwEvent.enter start]

/-- **C4** — Middleware ordering and short-circuit: for every list of
installed middlewares (given by their `callsNext` behaviours `bs`) and every
dispatched action, the synchronous execute phase invokes middlewares in
registration order; calling `next` passes control to the next middleware or,
for the last one, to the actual mutation; and if some middleware never calls
`next`, the mutation and all later middlewares never run — the chain simply
returns (it is a total function; no error is raised). -/
theorem restato_c4 {α β : Type} (bs : List Bool) (start : Nat) (a : α) (b : β)
    (s₀ : List MwEvent) :
    applyMiddleware traceAction a b false (traceMws start bs) s₀ =
      s₀ ++ expectedTrace start bs := by
  induction bs generalizing start s₀ with
  | nil => simp [applyMiddleware, traceMws, expectedTrace, traceAction]
  | cons hd tl ih =>
    cases hd with
    | true =>
      simp [traceMws, applyMiddleware, traceHook, expectedTrace, ih]
    | false =>
      simp [traceMws, applyMiddleware, traceHook, expectedTrace]

/-! ## The store scheduler (`store.js`, first variant, lines 1-213)

The store is modelled with a flat record state (`Obj`, an insertion-ordered
association list of string keys to primitive values): actions in the claims
below mutate top-level keys of the state object, which exercises `setChild` /
`mutate` of `proxy.js` at the root draft node.  State snapshots are `SVal`s:
a value together with an allocation id; `shallowCopy` allocates a fresh id,
and the reference comparisons `state.committed !== state.latest` of the
source compare ids. -/

/-- A primitive JS value held at a key of the flat state object.  Reading an
absent key yields `undef` (JS `undefined`), exactly as `target[key]` does in
`setChild`. -/
inductive Prim : Type where
  | undef
  | str (s : String)
  | num (n : Int)
  | pbool (b : Bool)
deriving DecidableEq, Repr

/-- The flat state object: an insertion-ordered association list. -/
abbrev Obj : Type := List (String × Prim)

/-- Property read, `target[key]`: `undef` when the key is absent. -/
def olookup : Obj → String → Prim
  | [], _ => Prim.undef
  | (k', v') :: rest, k => if k' = k then v' else olookup rest k

/-- Property write, `target[key] = value`: updates in place, appending new
keys at the end (JS own-property insertion order). -/
def oset : Obj → String → Prim → Obj
  | [], k, v => [(k, v)]
  | (k', v') :: rest, k, v =>
    if k' = k then (k, v) :: rest else (k', v') :: oset rest k v

/-- A state snapshot: its value plus its allocation id (reference identity —
two snapshots are the same JS object exactly when the ids agree). -/
structure SVal : Type where
  id : Nat
  val : Obj
deriving DecidableEq, Repr

/-- One step of a user action body: an assignment `state[k] = v` performed
through the root draft proxy. -/
inductive ActStep : Type where
  | assign (k : String) (v : Prim)
deriving DecidableEq, Repr

/-- A (synchronous) user action body: the sequence of assignments it performs
on the draft state it receives. -/
abbrev ActionSpec : Type := List ActStep

/-- First-order description of a middleware's hook behaviour, used where
middlewares are stored inside the store state (the behaviours exercised by
the repository's own store tests). -/
inductive HookSpec : Type where
  | absent
  | callNext
  | noNext
deriving DecidableEq, Repr

/-- First-order middleware description: behaviour of its `execute` and
`asyncExecuted` hooks. -/
structure MwSpec : Type where
  execute : HookSpec
  asyncExecuted : HookSpec
deriving DecidableEq, Repr

/-- Interpret a `HookSpec` as an actual hook. -/
def HookSpec.toHook {σ α β : Type} : HookSpec → Option (MwHookFn σ α β)
  | HookSpec.absent => none
  | HookSpec.callNext => some (fun a b next => next a b)
  | HookSpec.noNext => some (fun _ _ _ s => s)

/-- Interpret a `MwSpec` as a middleware object. -/
def MwSpec.toObj {σ α β : Type} (m : MwSpec) : MwObj σ α β :=
  ⟨m.execute.toHook, m.asyncExecuted.toHook⟩

/-- A pending microtask, as scheduled by `schedule(getGuard, fn)`
(`store.js` lines 202-206): the guard value captured at scheduling time is
stored with the task; at run time the task is skipped unless the guard getter
still yields the same value. -/
inductive MTask : Type where
  /-- `schedule(() => pendingActions.length, triggerActions)` from `dispatch`;
  the guard is the pending-queue length. -/
  | runActions (guard : Nat)
  /-- `schedule(storeInner.getState, commitAsyncMutation)` from `onCopied`;
  the guard is the committed snapshot (by reference, i.e. by id). -/
  | commitAsync (guard : Nat)
  /-- `schedule(storeInner.getState, notifySelectors)` from `commitChanges`;
  the guard is the committed snapshot (by reference, i.e. by id). -/
  | notifySel (guard : Nat)
deriving DecidableEq, Repr

/-- The whole store state.  Subscribers and commit listeners are identified
by numeric tokens (function reference identity).  The fields `committedLog`
and `notifyLog` are observation logs: which commit listeners have been
called, and which (subscriber, snapshot-value) notifications have been
delivered.  `destroyed` models the `state = selectors = middlewares =
pendingActions = commitListeners = null` assignment of `destroy()`; every
source null-check on those variables is rendered as a `destroyed` check. -/
structure Store : Type where
  pendingActions : List ActionSpec
  /-- `commitAsyncMutation`: `none` models `noop`, `some action` models the
  closure installed by `onCopied` for an action's asynchronous mutation. -/
  asyncPending : Option ActionSpec
  commitListeners : List Nat
  committedLog : List Nat
  selectors : List Nat
  notifyLog : List (Nat × Obj)
  committed : SVal
  latest : SVal
  middlewares : List MwSpec
  tasks : List MTask
  nextId : Nat
  destroyed : Bool
deriving DecidableEq, Repr

/-- `notifyCommitListeners` (`store.js` lines 186-195): call and clear the
commit listeners, then reset `commitAsyncMutation` to `noop`. -/
def notifyCommitListeners (st : Store) : Store :=
  { st with
    commitListeners := []
    committedLog := st.committedLog ++ st.commitListeners
    asyncPending := none }

/-- `commitChanges` (`store.js` lines 169-177): if the latest snapshot is a
different object from the committed one, publish it, notify commit listeners
and schedule a guarded subscriber notification. -/
def commitChanges (st : Store) : Store :=
  if st.committed.id ≠ st.latest.id then
    let st1 := notifyCommitListeners { st with committed := st.latest }
    -- `if (selectors?.length)`: null (destroyed) or empty suppresses scheduling
    if !st1.destroyed && !st1.selectors.isEmpty then
      { st1 with tasks := st1.tasks ++ [MTask.notifySel st1.committed.id] }
    else st1
  else st

/-- `discardChanges` (`store.js` lines 179-184): revert the latest snapshot
to the committed one; commit listeners are still notified so dirty proxy
nodes reset. -/
def discardChanges (st : Store) : Store :=
  if st.latest.id ≠ st.committed.id then
    notifyCommitListeners { st with latest := st.committed }
  else st

/-- The `commitAsyncMutation` closure built inside `onCopied` (`store.js`
lines 115-126): run the `asyncExecuted` middleware chain with the actual
commit as innermost handler; in the `finally`, discard unless some chain
reached the commit. -/
def commitAsyncRun (st : Store) : Store :=
  match st.asyncPending with
  | none => st
  | some action =>
    let doCommit : ActionSpec → Unit → (Store × Bool) → (Store × Bool) :=
      fun _ _ sb => if sb.2 then sb else (commitChanges sb.1, true)
    let out := applyMiddleware doCommit action () true
      (st.middlewares.map MwSpec.toObj) (st, false)
    if out.2 then out.1 else discardChanges out.1

/-- The running state of one action body against the root draft node:
the evolving latest snapshot, the allocation counter, the root node's
`mutated` flag, and whether a copy bubbled up to the store (`onCopied`). -/
structure BodyRun : Type where
  latest : SVal
  nextId : Nat
  mutatedFlag : Bool
  copied : Bool
deriving DecidableEq, Repr

/-- One assignment through the root draft node: `setChild` (`proxy.js` lines
263-283) ignores a write whose value is identical to the stored one
(`oldValue !== value`); otherwise it goes through the `mutate` gate
(`proxy.js` lines 368-383): the first effective write shallow-copies the
target (fresh id) and bubbles `onCopied`; later writes mutate the copy in
place. -/
def applyStep (r : BodyRun) : ActStep → BodyRun
  | ActStep.assign k v =>
    if olookup r.latest.val k = v then r
    else if r.mutatedFlag then
      { r with latest := ⟨r.latest.id, oset r.latest.val k v⟩ }
    else
      { latest := ⟨r.nextId, oset r.latest.val k v⟩
        nextId := r.nextId + 1
        mutatedFlag := true
        copied := true }

/-- Run an action body against a fresh root draft node over `latest`. -/
def runBody (latest : SVal) (nextId : Nat) (body : ActionSpec) : BodyRun :=
  body.foldl applyStep ⟨latest, nextId, false, false⟩

/-- `callAction` (`store.js` lines 104-153), synchronous part: run the body
through a fresh proxy tree rooted at `latest`; `onCopied` moved `latest` to
the copy and registered the root's `commit` callback (token = the copy's id);
the `finally` block commits immediately. -/
def callAction (st : Store) (body : ActionSpec) : Store :=
  let r := runBody st.latest st.nextId body
  commitChanges
    { st with
      latest := r.latest
      nextId := r.nextId
      commitListeners :=
        st.commitListeners ++ (if r.copied then [r.latest.id] else []) }

/-- `triggerActions` (`store.js` lines 91-102): settle any pending
asynchronous commit, then drain the whole queue as one batch, routing each
action through the synchronous middleware chain with `callAction` innermost. -/
def triggerActions (st : Store) : Store :=
  if st.destroyed then st
  else
    let st1 := commitAsyncRun st
    let batch := st1.pendingActions
    let st2 := { st1 with pendingActions := [] }
    batch.foldl
      (fun s a =>
        applyMiddleware (fun a' _ s' => callAction s' a') a () false
          (s.middlewares.map MwSpec.toObj) s)
      st2

/-- `notifySelectors` (`store.js` lines 197-200): invoke every subscriber
with the committed snapshot (`store.select(selector)`). -/
def notifySelectors (st : Store) : Store :=
  if st.destroyed then st
  else
    { st with notifyLog := st.notifyLog ++ st.selectors.map (fun f => (f, st.committed.val)) }

/-- Run one scheduled microtask: re-evaluate the guard getter and skip the
task if the value moved on (`schedule`, `store.js` lines 202-206).  On a
destroyed store the guard getters dereference nulled fields / assert, so no
task has any effect. -/
def runTask (st : Store) : MTask → Store
  | MTask.runActions g =>
    if st.destroyed then st
    else if st.pendingActions.length = g then triggerActions st else st
  | MTask.commitAsync g =>
    if st.destroyed then st
    else if st.committed.id = g then commitAsyncRun st else st
  | MTask.notifySel g =>
    if st.destroyed then st
    else if st.committed.id = g then notifySelectors st else st

/-- Pop and run the first pending microtask. -/
def stepTask (st : Store) : Store :=
  match st.tasks with
  | [] => st
  | t :: rest => runTask { st with tasks := rest } t

/-- Run up to `fuel` microtasks (the microtask queue drained in FIFO order). -/
def drain : Nat → Store → Store
  | 0, st => st
  | n + 1, st => if st.tasks.isEmpty then st else drain n (stepTask st)

/-- `assertNotDestroyed` (`store.js` lines 208-212). -/
def assertNotDestroyed (st : Store) : Except String Unit :=
  if st.destroyed then Except.error "Store has been destroyed!" else Except.ok ()

/-- `dispatch` (`store.js` lines 23-29): enqueue the action and schedule a
batch flush guarded by the pending-queue length. -/
def dispatch (st : Store) (a : ActionSpec) : Except String Store := do
  let _ ← assertNotDestroyed st
  let pending := st.pendingActions ++ [a]
  Except.ok
    { st with
      pendingActions := pending
      tasks := st.tasks ++ [MTask.runActions pending.length] }

/-- `getState` (`store.js` lines 31-34). -/
def getState (st : Store) : Except String Obj := do
  let _ ← assertNotDestroyed st
  Except.ok st.committed.val

/-- `select` (`store.js` lines 49-52); the selector is the identity here —
what matters for the claims is which snapshot it is applied to. -/
def select (st : Store) : Except String Obj := do
  let _ ← assertNotDestroyed st
  Except.ok st.committed.val

/-- `setState` (`store.js` lines 36-44): discard uncommitted changes and the
pending queue, then replace the state by an internal action bypassing the
middlewares (the fresh `newState` object is never identical to the stored
one, so the internal `s.latest = latest` write always copies). -/
def setState (st : Store) (v : Obj) : Except String Store := do
  let _ ← assertNotDestroyed st
  let st1 := discardChanges st
  let st2 := { st1 with pendingActions := [] }
  let st3 :=
    { st2 with
      latest := ⟨st2.nextId, v⟩
      nextId := st2.nextId + 1
      commitListeners := st2.commitListeners ++ [st2.nextId] }
  Except.ok (commitChanges st3)

/-- `subscribe` (`store.js` lines 54-61): push the selector (identified by
function reference, a numeric token here) onto the subscriber list. -/
def subscribe (st : Store) (sel : Nat) : Except String Store := do
  let _ ← assertNotDestroyed st
  Except.ok { st with selectors := st.selectors ++ [sel] }

/-- The unsubscribe closure returned by `subscribe`:
`selectors = selectors?.filter(fn => fn !== selector)` — removal is by
function reference, so every registration of the same function goes. -/
def unsubscribe (st : Store) (sel : Nat) : Store :=
  if st.destroyed then st
  else { st with selectors := st.selectors.filter (fun f => f ≠ sel) }

/-- `addMiddlewares` (`store.js` lines 63-69): invoke each factory and append
the returned middleware objects. -/
def addMiddlewares (st : Store) (specs : List MwSpec) : Except String Store := do
  let _ ← assertNotDestroyed st
  Except.ok { st with middlewares := st.middlewares ++ specs }

/-- `destroy` (`store.js` lines 71-80): run the middlewares' `destroy` hooks
(logged, no effect on the modelled state) and null out every internal field,
flipping the store into a permanently failing state. -/
def destroy (st : Store) : Store :=
  { st with
    destroyed := true
    pendingActions := []
    selectors := []
    middlewares := []
    commitListeners := []
    asyncPending := none }

/-- A store as created by `createStore(initState)` once the initial
`setState` has settled: committed and latest point at the same snapshot, all
queues are empty, the logs are empty. -/
def mkStore (v : Obj) : Store :=
  { pendingActions := []
    asyncPending := none
    commitListeners := []
    committedLog := []
    selectors := []
    notifyLog := []
    committed := ⟨0, v⟩
    latest := ⟨0, v⟩
    middlewares := []
    tasks := []
    nextId := 1
    destroyed := false }

/-! ## Claim C7: use after destroy fails -/

/-- **C7** — Use after destroy fails: after `destroy()` has been called on a
store, every store operation — `dispatch`, `getState`, `setState`, `select`,
`subscribe`, `addMiddlewares` — throws, synchronously at the call site, the
error `"Store has been destroyed!"` identifying the store as destroyed. -/
theorem restato_c7 (st : Store) (a : ActionSpec) (v : Obj) (sel : Nat)
    (specs : List MwSpec) :
    dispatch (destroy st) a = Except.error "Store has been destroyed!" ∧
    getState (destroy st) = Except.error "Store has been destroyed!" ∧
    setState (destroy st) v = Except.error "Store has been destroyed!" ∧
    select (destroy st) = Except.error "Store has been destroyed!" ∧
    subscribe (destroy st) sel = Except.error "Store has been destroyed!" ∧
    addMiddlewares (destroy st) specs = Except.error "Store has been destroyed!" := by
  refine ⟨?_, ?_, ?_, ?_, ?_, ?_⟩ <;>
    simp [dispatch, getState, setState, select, subscribe, addMiddlewares,
      assertNotDestroyed, destroy, Bind.bind, Except.bind]

/-! ## Claim C10: unsubscribe removes by function identity -/

/-- The notifications appended by a run of `notifySelectors` (everything past
the log length the store already had). -/
def freshNotifications (st : Store) : List (Nat × Obj) :=
  (notifySelectors st).notifyLog.drop st.notifyLog.length

/-- **C10** — Unsubscribe removes by function identity: if the same selector
function is subscribed twice, calling the unsubscribe closure returned by
either subscription filters the subscriber list by reference inequality, so
every registration of that function is removed — none is left in the list,
and a subsequent subscriber notification delivers nothing to it. -/
theorem restato_c10 (st : Store) (sel : Nat) (h : st.destroyed = false) :
    ∃ st1 st2,
      subscribe st sel = Except.ok st1 ∧
      subscribe st1 sel = Except.ok st2 ∧
      (unsubscribe st2 sel).selectors = st.selectors.filter (fun f => f ≠ sel) ∧
      sel ∉ (unsubscribe st2 sel).selectors ∧
      ∀ o : Obj, (sel, o) ∉ freshNotifications (unsubscribe st2 sel) := by
  refine ⟨{ st with selectors := st.selectors ++ [sel] },
    { st with selectors := st.selectors ++ [sel] ++ [sel] }, ?_, ?_, ?_, ?_, ?_⟩
  · simp [subscribe, assertNotDestroyed, h, Bind.bind, Except.bind]
  · simp [subscribe, assertNotDestroyed, h, Bind.bind, Except.bind]
  · simp [unsubscribe, h]
  · simp [unsubscribe, h, List.mem_filter]
  · intro o
    simp only [freshNotifications, notifySelectors, unsubscribe, h]
    simp only [Bool.false_eq_true, if_false, List.drop_left, List.mem_map, List.mem_filter,
      not_exists, not_and]
    rintro x ⟨_, hx⟩ hpair
    have : x = sel := congrArg Prod.fst hpair
    simp [this] at hx

/-- Witness for C7-style hypotheses is not needed (no hypothesis); witness
for **C10** at a concrete store: subscriber `7` registered twice on a fresh
store, then unsubscribed once. -/
theorem restato_c10_witness :
    (mkStore [("x", Prim.num 0)]).destroyed = false ∧
    (∃ st1 st2,
      subscribe (mkStore [("x", Prim.num 0)]) 7 = Except.ok st1 ∧
      subscribe st1 7 = Except.ok st2 ∧
      (unsubscribe st2 7).selectors =
        (mkStore [("x", Prim.num 0)]).selectors.filter (fun f => f ≠ 7) ∧
      7 ∉ (unsubscribe st2 7).selectors ∧
      ∀ o : Obj, (7, o) ∉ freshNotifications (unsubscribe st2 7)) :=
  ⟨rfl, restato_c10 (mkStore [("x", Prim.num 0)]) 7 rfl⟩

/-! ## Claim C9: identical-value write is a no-op -/

/-- Every assignment of the body writes a value identical (`===`) to the one
already stored at that key of `v`. -/
def allSameValue (v : Obj) (body : ActionSpec) : Bool :=
  body.all (fun s => match s with | ActStep.assign k x => olookup v k = x)

/-- A body all of whose writes are identical-valued leaves the body run
entirely untouched: `setChild`'s `oldValue !== value` guard fires on every
step, so the `mutate` gate is never reached. -/
theorem runBody_allSame (latest : SVal) (nextId : Nat) (body : ActionSpec)
    (h : allSameValue latest.val body = true) :
    runBody latest nextId body = ⟨latest, nextId, false, false⟩ := by
  induction body with
  | nil => rfl
  | cons s rest ih =>
    match s with
    | ActStep.assign k x =>
      simp only [allSameValue, List.all_cons, Bool.and_eq_true] at h
      have hk : olookup latest.val k = x := by
        have := h.1
        simpa [decide_eq_true_eq] using this
      have hrest : allSameValue latest.val rest = true := h.2
      simp only [runBody, List.foldl_cons, applyStep, hk, if_pos rfl]
      exact ih hrest

/-- **C9** — Identical-value write is a no-op: when a store with no pending
changes runs an action whose every write stores back the value already
present at that key, `callAction` returns the store completely unchanged: no
shallow copy is made (the allocation counter does not move), no `onCopied`
reaches the store and no commit listener is registered, the committed and
latest pointers are untouched, and no subscriber notification is scheduled
(the task queue is unchanged). -/
theorem restato_c9 (st : Store) (body : ActionSpec)
    (hidle : st.committed.id = st.latest.id)
    (hsame : allSameValue st.latest.val body = true) :
    callAction st body = st := by
  unfold callAction
  rw [runBody_allSame st.latest st.nextId body hsame]
  simp only [commitChanges, hidle]
  simp

/-- Witness for **C9**: writing the value already stored at key `"x"` of a
fresh store changes nothing. -/
theorem restato_c9_witness :
    (mkStore [("x", Prim.num 1)]).committed.id = (mkStore [("x", Prim.num 1)]).latest.id ∧
    allSameValue (mkStore [("x", Prim.num 1)]).latest.val [ActStep.assign "x" (Prim.num 1)] = true ∧
    callAction (mkStore [("x", Prim.num 1)]) [ActStep.assign "x" (Prim.num 1)] =
      mkStore [("x", Prim.num 1)] :=
  ⟨rfl, by decide,
    restato_c9 (mkStore [("x", Prim.num 1)]) [ActStep.assign "x" (Prim.num 1)] rfl (by decide)⟩

/-! ## Claim C2: asynchronous-mutation atomicity -/

/-- The `asyncExecuted` chain reaches the innermost handler exactly when no
installed middleware withholds its `next` call (an absent hook falls through
to `next`). -/
def chainPasses (specs : List MwSpec) : Bool :=
  specs.all (fun m => m.asyncExecuted ≠ HookSpec.noNext)

/-- Running the `asyncExecuted` chain with the one-shot commit as innermost
handler: the commit happens (and the `done` flag is set) exactly when every
middleware passed control on; otherwise the store comes back untouched with
`done` still false. -/
theorem applyMiddleware_doCommit (act : ActionSpec) (specs : List MwSpec) (st : Store) :
    applyMiddleware
      (fun _ _ (sb : Store × Bool) => if sb.2 then sb else (commitChanges sb.1, true))
      act () true (specs.map MwSpec.toObj) (st, false) =
      if chainPasses specs then (commitChanges st, true) else (st, false) := by
  induction specs with
  | nil => simp [applyMiddleware, chainPasses]
  | cons m rest ih =>
    cases hm : m.asyncExecuted with
    | absent =>
      simp [applyMiddleware, MwSpec.toObj, HookSpec.toHook, hm, chainPasses, ih,
        List.all_cons]
    | callNext =>
      simp [applyMiddleware, MwSpec.toObj, HookSpec.toHook, hm, chainPasses, ih,
        List.all_cons]
    | noNext =>
      simp [applyMiddleware, MwSpec.toObj, HookSpec.toHook, hm, chainPasses,
        List.all_cons]

/-- **C2** — Asynchronous-mutation atomicity: for a store holding a pending
asynchronous mutation (`commitAsyncMutation` installed, `latest` a different
snapshot from `committed`), running the pending commit makes the mutation
committed if and only if the `asyncExecuted` middleware chain reached the
innermost handler (every installed middleware called `next`): in that case
`committed` becomes the pending `latest` and a subscriber notification is
scheduled; otherwise the pending mutation is fully discarded — `latest` is
reverted to the last committed snapshot, nothing is published, no subscriber
notification is scheduled — and the commit listeners are still notified (and
cleared) so dirty proxy nodes reset. -/
theorem restato_c2 (st : Store) (act : ActionSpec)
    (hp : st.asyncPending = some act)
    (hne : st.latest.id ≠ st.committed.id)
    (hd : st.destroyed = false)
    (hs : st.selectors ≠ []) :
    (chainPasses st.middlewares = true →
      (commitAsyncRun st).committed = st.latest ∧
      (commitAsyncRun st).latest = st.latest ∧
      (commitAsyncRun st).committedLog = st.committedLog ++ st.commitListeners ∧
      (commitAsyncRun st).commitListeners = [] ∧
      (commitAsyncRun st).asyncPending = none ∧
      (commitAsyncRun st).tasks = st.tasks ++ [MTask.notifySel st.latest.id]) ∧
    (chainPasses st.middlewares = false →
      (commitAsyncRun st).latest = st.committed ∧
      (commitAsyncRun st).committed = st.committed ∧
      (commitAsyncRun st).committedLog = st.committedLog ++ st.commitListeners ∧
      (commitAsyncRun st).commitListeners = [] ∧
      (commitAsyncRun st).asyncPending = none ∧
      (commitAsyncRun st).tasks = st.tasks) := by
  have hrun : commitAsyncRun st =
      if chainPasses st.middlewares then commitChanges st else discardChanges st := by
    unfold commitAsyncRun
    rw [hp]
    simp only [applyMiddleware_doCommit]
    by_cases hcp : chainPasses st.middlewares <;> simp [hcp]
  constructor
  · intro hcp
    rw [hrun, if_pos hcp]
    have hne' : st.committed.id ≠ st.latest.id := fun hEq => hne hEq.symm
    simp only [commitChanges, notifyCommitListeners, if_pos hne', hd]
    simp [hs]
  · intro hcp
    rw [hrun, if_neg (by simp [hcp])]
    simp [discardChanges, notifyCommitListeners, hne]

/-- A concrete store with a pending asynchronous mutation, used to witness
C2: one middleware whose `asyncExecuted` never calls `next`. -/
def c2sampleStore : Store :=
  { pendingActions := []
    asyncPending := some [ActStep.assign "async" (Prim.pbool true)]
    commitListeners := [9]
    committedLog := []
    selectors := [5]
    notifyLog := []
    committed := ⟨0, [("sync", Prim.pbool true)]⟩
    latest := ⟨1, [("sync", Prim.pbool true), ("async", Prim.pbool true)]⟩
    middlewares := [⟨HookSpec.absent, HookSpec.noNext⟩]
    tasks := []
    nextId := 2
    destroyed := false }

/-- Witness for **C2** at `c2sampleStore`: the discarding middleware really
discards — `latest` reverts to `committed` and the commit listener `9` is
notified. -/
theorem restato_c2_witness :
    c2sampleStore.asyncPending = some [ActStep.assign "async" (Prim.pbool true)] ∧
    c2sampleStore.latest.id ≠ c2sampleStore.committed.id ∧
    c2sampleStore.destroyed = false ∧
    c2sampleStore.selectors ≠ [] ∧
    ((chainPasses c2sampleStore.middlewares = true →
      (commitAsyncRun c2sampleStore).committed = c2sampleStore.latest ∧
      (commitAsyncRun c2sampleStore).latest = c2sampleStore.latest ∧
      (commitAsyncRun c2sampleStore).committedLog =
        c2sampleStore.committedLog ++ c2sampleStore.commitListeners ∧
      (commitAsyncRun c2sampleStore).commitListeners = [] ∧
      (commitAsyncRun c2sampleStore).asyncPending = none ∧
      (commitAsyncRun c2sampleStore).tasks =
        c2sampleStore.tasks ++ [MTask.notifySel c2sampleStore.latest.id]) ∧
    (chainPasses c2sampleStore.middlewares = false →
      (commitAsyncRun c2sampleStore).latest = c2sampleStore.committed ∧
      (commitAsyncRun c2sampleStore).committed = c2sampleStore.committed ∧
      (commitAsyncRun c2sampleStore).committedLog =
        c2sampleStore.committedLog ++ c2sampleStore.commitListeners ∧
      (commitAsyncRun c2sampleStore).commitListeners = [] ∧
      (commitAsyncRun c2sampleStore).asyncPending = none ∧
      (commitAsyncRun c2sampleStore).tasks = c2sampleStore.tasks)) :=
  ⟨rfl, by decide, rfl, by decide,
    restato_c2 c2sampleStore [ActStep.assign "async" (Prim.pbool true)]
      rfl (by decide) rfl (by decide)⟩

/-! ## Claim C3: notification collapsing across a batch -/

/-- Once the root draft node is dirty, further body steps mutate the copy in
place: the snapshot id, the allocation counter, the flag and the copied
marker all stay put. -/
theorem foldl_applyStep_flagged (b : ActionSpec) :
    ∀ r : BodyRun, r.mutatedFlag = true →
      (b.foldl applyStep r).latest.id = r.latest.id ∧
      (b.foldl applyStep r).nextId = r.nextId ∧
      (b.foldl applyStep r).mutatedFlag = true ∧
      (b.foldl applyStep r).copied = r.copied := by
  induction b with
  | nil => intro r h; exact ⟨rfl, rfl, h, rfl⟩
  | cons s rest ih =>
    intro r h
    match s with
    | ActStep.assign k v =>
      by_cases hkv : olookup r.latest.val k = v
      · simpa [applyStep, hkv] using ih r h
      · have := ih { r with latest := ⟨r.latest.id, oset r.latest.val k v⟩ } (by simp [h])
        simpa [applyStep, hkv, h] using this

/-- A body run either touches nothing at all, or it makes exactly one copy:
the resulting snapshot carries the freshly allocated id and the allocation
counter moved by one. -/
theorem runBody_char (l : SVal) (n : Nat) (b : ActionSpec) :
    runBody l n b = ⟨l, n, false, false⟩ ∨
    ((runBody l n b).latest.id = n ∧ (runBody l n b).nextId = n + 1 ∧
      (runBody l n b).mutatedFlag = true ∧ (runBody l n b).copied = true) := by
  induction b with
  | nil => exact Or.inl rfl
  | cons s rest ih =>
    match s with
    | ActStep.assign k v =>
      by_cases hkv : olookup l.val k = v
      · have : runBody l n (ActStep.assign k v :: rest) = runBody l n rest := by
          simp [runBody, applyStep, hkv]
        rw [this]; exact ih
      · have hstep : runBody l n (ActStep.assign k v :: rest) =
            rest.foldl applyStep ⟨⟨n, oset l.val k v⟩, n + 1, true, true⟩ := by
          simp [runBody, applyStep, hkv]
        have := foldl_applyStep_flagged rest ⟨⟨n, oset l.val k v⟩, n + 1, true, true⟩ rfl
        rw [hstep]
        exact Or.inr ⟨this.1, this.2.1, this.2.2.1, this.2.2.2⟩

/-- A body run that copied did exactly one copy with the fresh id. -/
theorem runBody_copied (l : SVal) (n : Nat) (b : ActionSpec)
    (h : (runBody l n b).copied = true) :
    (runBody l n b).latest.id = n ∧ (runBody l n b).nextId = n + 1 ∧
      (runBody l n b).mutatedFlag = true := by
  rcases runBody_char l n b with heq | hstats
  · rw [heq] at h; cases h
  · exact ⟨hstats.1, hstats.2.1, hstats.2.2.1⟩

set_option maxHeartbeats 1600000 in
/-- **C3** — Notification collapsing: two dispatch calls issued synchronously
in the same tick (each action effectively mutating the state) are flushed as
one batch; each commit schedules a guarded notification task, the first
task's guard is superseded by the second commit before it runs, so it is
skipped — every subscriber receives exactly one notification, carrying the
final committed state after the whole batch. -/
theorem restato_c3 (st : Store) (a1 a2 : ActionSpec)
    (ht : st.tasks = []) (hpa : st.pendingActions = [])
    (hap : st.asyncPending = none) (hd : st.destroyed = false)
    (hmw : st.middlewares = [])
    (heq : st.committed = st.latest) (hsel : st.selectors ≠ [])
    (hid : st.latest.id < st.nextId)
    (h1 : (runBody st.latest st.nextId a1).copied = true)
    (h2 : (runBody (runBody st.latest st.nextId a1).latest
            (runBody st.latest st.nextId a1).nextId a2).copied = true) :
    ∃ st1 st2,
      dispatch st a1 = Except.ok st1 ∧
      dispatch st1 a2 = Except.ok st2 ∧
      (drain 4 st2).tasks = [] ∧
      (drain 4 st2).committed.val =
        (runBody (runBody st.latest st.nextId a1).latest
          (runBody st.latest st.nextId a1).nextId a2).latest.val ∧
      (drain 4 st2).notifyLog = st.notifyLog ++
        st.selectors.map (fun f =>
          (f, (runBody (runBody st.latest st.nextId a1).latest
                (runBody st.latest st.nextId a1).nextId a2).latest.val)) := by
  obtain ⟨pa, ap, cl, clog, sels, nlog, comm, lat, mws, tks, nid, destr⟩ := st
  simp only at ht hpa hap hd hmw heq hsel hid h1 h2 ⊢
  subst ht hpa hap hd hmw heq
  obtain ⟨e1id, e1nx, _⟩ := runBody_copied comm nid a1 h1
  obtain ⟨e2id, e2nx, _⟩ :=
    runBody_copied (runBody comm nid a1).latest (runBody comm nid a1).nextId a2 h2
  have hselF : sels.isEmpty = false := by
    cases sels with
    | nil => exact absurd rfl hsel
    | cons x xs => rfl
  have hne1 : comm.id ≠ (runBody comm nid a1).latest.id := by
    rw [e1id]; exact Nat.ne_of_lt hid
  have hne2 : (runBody comm nid a1).latest.id ≠
      (runBody (runBody comm nid a1).latest (runBody comm nid a1).nextId a2).latest.id := by
    rw [e1id, e2id, e1nx]; exact Nat.ne_of_lt (Nat.lt_succ_self nid)
  refine ⟨⟨[a1], none, cl, clog, sels, nlog, comm, comm, [], [MTask.runActions 1], nid, false⟩,
    ⟨[a1, a2], none, cl, clog, sels, nlog, comm, comm, [],
      [MTask.runActions 1, MTask.runActions 2], nid, false⟩, ?_, ?_, ?_⟩
  · simp [dispatch, assertNotDestroyed, Bind.bind, Except.bind]
  · simp [dispatch, assertNotDestroyed, Bind.bind, Except.bind]
  · -- run the four microtasks: stale flush (skipped), real flush, stale notify
    -- (skipped because the second commit superseded its guard), final notify
    have c1eq : callAction ⟨[], none, cl, clog, sels, nlog, comm, comm, [], [], nid, false⟩ a1 =
        ⟨[], none, [], clog ++ (cl ++ [(runBody comm nid a1).latest.id]), sels, nlog,
          (runBody comm nid a1).latest, (runBody comm nid a1).latest, [],
          [MTask.notifySel (runBody comm nid a1).latest.id],
          (runBody comm nid a1).nextId, false⟩ := by
      simp only [callAction, commitChanges, notifyCommitListeners]
      simp [h1, hne1, hselF]
    have c2eq : callAction
        ⟨[], none, [], clog ++ (cl ++ [(runBody comm nid a1).latest.id]), sels, nlog,
          (runBody comm nid a1).latest, (runBody comm nid a1).latest, [],
          [MTask.notifySel (runBody comm nid a1).latest.id],
          (runBody comm nid a1).nextId, false⟩ a2 =
        ⟨[], none, [],
          clog ++ (cl ++ [(runBody comm nid a1).latest.id]) ++
            [(runBody (runBody comm nid a1).latest (runBody comm nid a1).nextId a2).latest.id],
          sels, nlog,
          (runBody (runBody comm nid a1).latest (runBody comm nid a1).nextId a2).latest,
          (runBody (runBody comm nid a1).latest (runBody comm nid a1).nextId a2).latest, [],
          [MTask.notifySel (runBody comm nid a1).latest.id,
            MTask.notifySel
              (runBody (runBody comm nid a1).latest (runBody comm nid a1).nextId a2).latest.id],
          (runBody (runBody comm nid a1).latest (runBody comm nid a1).nextId a2).nextId,
          false⟩ := by
      simp only [callAction, commitChanges, notifyCommitListeners]
      simp [h2, hne2, hselF]
    have hg1 : (runBody (runBody comm nid a1).latest (runBody comm nid a1).nextId a2).latest.id ≠
        (runBody comm nid a1).latest.id := by
      rw [e1id, e2id, e1nx]; omega
    refine ⟨?_, ?_, ?_⟩ <;>
      simp [drain, stepTask, runTask, triggerActions, commitAsyncRun, applyMiddleware,
        c1eq, c2eq, notifySelectors, hselF, hg1]

/-- A fresh store with one subscriber (token `3`), for the C3 witness:
the P10 scenario of the spec. -/
def c3sampleStore : Store := { mkStore [] with selectors := [3] }

/-- First action of the P10 scenario: `s.x = "a"`. -/
def c3act1 : ActionSpec := [ActStep.assign "x" (Prim.str "a")]

/-- Second action of the P10 scenario: `s.x = "b"`. -/
def c3act2 : ActionSpec := [ActStep.assign "x" (Prim.str "b")]

/-- Witness for **C3** at the spec's P10 scenario: `dispatch(s => s.x = "a")`
then `dispatch(s => s.x = "b")` in one tick delivers exactly one notification
to the subscriber, carrying `"b"`. -/
theorem restato_c3_witness :
    c3sampleStore.tasks = [] ∧ c3sampleStore.pendingActions = [] ∧
    c3sampleStore.asyncPending = none ∧ c3sampleStore.destroyed = false ∧
    c3sampleStore.middlewares = [] ∧ c3sampleStore.committed = c3sampleStore.latest ∧
    c3sampleStore.selectors ≠ [] ∧ c3sampleStore.latest.id < c3sampleStore.nextId ∧
    (runBody c3sampleStore.latest c3sampleStore.nextId c3act1).copied = true ∧
    (runBody (runBody c3sampleStore.latest c3sampleStore.nextId c3act1).latest
      (runBody c3sampleStore.latest c3sampleStore.nextId c3act1).nextId c3act2).copied = true ∧
    (∃ st1 st2,
      dispatch c3sampleStore c3act1 = Except.ok st1 ∧
      dispatch st1 c3act2 = Except.ok st2 ∧
      (drain 4 st2).tasks = [] ∧
      (drain 4 st2).committed.val =
        (runBody (runBody c3sampleStore.latest c3sampleStore.nextId c3act1).latest
          (runBody c3sampleStore.latest c3sampleStore.nextId c3act1).nextId c3act2).latest.val ∧
      (drain 4 st2).notifyLog = c3sampleStore.notifyLog ++
        c3sampleStore.selectors.map (fun f =>
          (f, (runBody (runBody c3sampleStore.latest c3sampleStore.nextId c3act1).latest
                (runBody c3sampleStore.latest c3sampleStore.nextId c3act1).nextId
                c3act2).latest.val))) :=
  ⟨rfl, rfl, rfl, rfl, rfl, rfl, by decide, by decide, by decide, by decide,
    restato_c3 c3sampleStore c3act1 c3act2 rfl rfl rfl rfl rfl rfl
      (by decide) (by decide) (by decide) (by decide)⟩

/-! ## Claim C1: copy-on-first-write across the proxy tree

The draft proxy tree (`proxy.js`) is modelled as an arena of nodes keyed by
tree position (a path of keys from the root), the re-architecture the spec
itself describes for it (§9).  Each position carries its `mutated` flag and
an instrumentation counter of the shallow copies made at it during the
current commit cycle (`onCopied` fires exactly when a copy is made, so the
counter also counts the `onCopied`/parent notifications).  Values are not
carried: the claim counts copies; the value-level behaviour of the store is
modelled in the `Store` embedding above.

A mutation through the draft node at position `p` is `mutate` (`proxy.js`
lines 368-383): if the node is already dirty the existing copy is mutated in
place and nothing else happens; otherwise the node marks itself dirty,
shallow-copies its target, performs the write and notifies its parent
(`parent?.onCopied`).  The parent hook installed by `adoptOrCreateChild`
(`proxy.js` lines 305-344) distinguishes the parent's kind:

* for object/array/map parents it is `(newVal) => mutate(() => setProp(target,
  key, newVal))` — the plain gate again, so the bubble stops at the first
  already-dirty ancestor;
* for `Set` parents it is `(newVal) => { mutated = false; mutate(noop,
  copyItem) }` (`proxy.js` lines 309-328) — the dirty flag is *reset* first,
  because a set member cannot be updated in place, so the set parent makes a
  fresh shallow copy and notifies *its* parent on every bubble that passes
  through it.

`K p = true` marks the positions holding unordered sets. -/

/-- A tree position: the path of keys from the root. -/
abbrev TPath : Type := List String

/-- `pfx q p`: `q` is an ancestor-or-self position of `p` (a list prefix). -/
def pfx : TPath → TPath → Bool
  | [], _ => true
  | _ :: _, [] => false
  | a :: q, b :: p => a == b && pfx q p

/-- Per-position draft node state: the `mutated` flag and the number of
shallow copies made at this position in the current commit cycle. -/
structure NodeSt : Type where
  mutated : Bool
  copies : Nat
deriving DecidableEq, Repr

/-- The state of the whole draft tree: node state at every position
(positions never touched sit at their defaults). -/
abbrev TreeSt : Type := TPath → NodeSt

/-- Mark position `p` dirty and count one shallow copy there. -/
def bump (f : TreeSt) (p : TPath) : TreeSt :=
  fun q => if q = p then ⟨true, (f p).copies + 1⟩ else f q

/-- The `onCopied` bubble arriving at ancestor position `p` from a child
that has just been copied.  A `Set` parent (`K p`) resets its flag and
re-copies unconditionally (`mutated = false; mutate(noop, copyItem)`); any
other parent goes through the plain `mutate` gate: already dirty means
mutate-in-place and stop, otherwise copy and keep bubbling. -/
def bubble (K : TPath → Bool) (f : TreeSt) (p : TPath) : TreeSt :=
  if K p then
    let f' := bump f p
    if _h : p = [] then f' else bubble K f' p.dropLast
  else if (f p).mutated then f
  else
    let f' := bump f p
    if _h : p = [] then f' else bubble K f' p.dropLast
termination_by p.length
decreasing_by
  all_goals
    simp only [List.length_dropLast]
    exact Nat.sub_lt (List.length_pos.mpr _h) Nat.one_pos

/-- A mutation performed through the draft node at position `p`: the `mutate`
gate at `p` itself, then the `onCopied` bubble through the ancestors. -/
def write (K : TPath → Bool) (f : TreeSt) (p : TPath) : TreeSt :=
  if (f p).mutated then f
  else
    let f' := bump f p
    if p = [] then f' else bubble K f' p.dropLast

/-- A sequence of mutations within one commit cycle, in order. -/
def writeAll (K : TPath → Bool) (f : TreeSt) (ps : List TPath) : TreeSt :=
  ps.foldl (write K) f

/-- The untouched draft tree at the start of a commit cycle. -/
def freshTree : TreeSt := fun _ => ⟨false, 0⟩

/-- `ancB ps q`: position `q` is an ancestor-or-self of some mutated
position. -/
def ancB (ps : List TPath) (q : TPath) : Bool :=
  ps.any (fun p => pfx q p)

/-- **C1, counterexample** — the claim fails at unordered-set positions: in a
fresh cycle, mutating set member `"a"` and then set member `"b"` of the set
at position `["s"]` shallow-copies the set node *twice* (its `onCopied`
parent notification also fires twice), although `["s"]` is an ancestor
position of the mutated positions and the claim demands exactly one copy per
commit cycle there.  (`proxy.js` resets the set's dirty flag on every member
bubble — lines 309-328 — because a set member cannot be updated in place.) -/
theorem restato_c1_counterexample :
    ancB [["s", "a"], ["s", "b"]] ["s"] = true ∧
    (writeAll (fun q => q == ["s"]) freshTree [["s", "a"], ["s", "b"]] ["s"]).copies = 2 := by
  constructor
  · rfl
  · simp [writeAll, write, bubble, bump, freshTree]

/-! ### Prefix bookkeeping for the amended C1 -/

theorem pfx_nil_left (p : TPath) : pfx [] p = true := rfl

theorem pfx_nil_right (q : TPath) : pfx q [] = true ↔ q = [] := by
  cases q <;> simp [pfx]

theorem pfx_refl (p : TPath) : pfx p p = true := by
  induction p with
  | nil => rfl
  | cons a p ih => simp [pfx, ih]

theorem pfx_trans {a b c : TPath} (h1 : pfx a b = true) (h2 : pfx b c = true) :
    pfx a c = true := by
  induction a generalizing b c with
  | nil => rfl
  | cons x a ih =>
    cases b with
    | nil => simp [pfx] at h1
    | cons y b =>
      cases c with
      | nil => simp [pfx] at h2
      | cons z c =>
        simp only [pfx, Bool.and_eq_true, beq_iff_eq] at h1 h2 ⊢
        exact ⟨h1.1.trans h2.1, ih h1.2 h2.2⟩

theorem pfx_append_self (p t : TPath) : pfx p (p ++ t) = true := by
  induction p with
  | nil => rfl
  | cons a p ih => simp [pfx, ih]

theorem pfx_append_inner (p s t : TPath) : pfx (p ++ s) (p ++ t) = pfx s t := by
  induction p with
  | nil => rfl
  | cons a p ih => simp [pfx, ih]

theorem pfx_append_cases {q : TPath} (p t : TPath) (h : pfx q (p ++ t) = true) :
    pfx q p = true ∨ ∃ s, q = p ++ s ∧ pfx s t = true := by
  induction p generalizing q with
  | nil => exact Or.inr ⟨q, rfl, h⟩
  | cons b p ih =>
    cases q with
    | nil => exact Or.inl rfl
    | cons a q =>
      simp only [List.cons_append, pfx, Bool.and_eq_true, beq_iff_eq] at h
      rcases ih h.2 with hl | ⟨s, hs, hst⟩
      · exact Or.inl (by simp [pfx, h.1, hl])
      · exact Or.inr ⟨s, by simp [h.1, hs], hst⟩

theorem append_singleton_ne_self (p t : TPath) (ht : t ≠ []) : p ≠ p ++ t := by
  intro h
  have : p.length = p.length + t.length := by
    conv_lhs => rw [h]
    simp
  have : t.length = 0 := by omega
  exact ht (List.eq_nil_of_length_eq_zero this)

/-- All prefixes of a path, the empty prefix included. -/
def prefixes : TPath → List TPath
  | [] => [[]]
  | k :: t => [] :: (prefixes t).map (fun s => k :: s)

theorem mem_prefixes (r t : TPath) : r ∈ prefixes t ↔ pfx r t = true := by
  induction t generalizing r with
  | nil => cases r <;> simp [prefixes, pfx]
  | cons k t ih =>
    cases r with
    | nil => simp [prefixes, pfx]
    | cons a r =>
      constructor
      · intro h
        simp only [prefixes, List.mem_cons, List.mem_map] at h
        rcases h with h | ⟨s, hs, heq⟩
        · exact absurd h (List.cons_ne_nil a r)
        · cases heq
          simp only [pfx, beq_self_eq_true, Bool.true_and]
          exact (ih _).mp hs
      · intro h
        simp only [pfx, Bool.and_eq_true, beq_iff_eq] at h
        obtain ⟨hak, hrt⟩ := h
        subst hak
        simp only [prefixes, List.mem_cons, List.mem_map]
        exact Or.inr ⟨r, (ih r).mpr hrt, rfl⟩

/-- The positions already re-copied while the `onCopied` bubble walks up:
`p ++ s` for every nonempty prefix `s` of the remaining tail `t`. -/
def bumped (p t q : TPath) : Bool :=
  (prefixes t).any (fun s => !s.isEmpty && q == p ++ s)

theorem bumped_iff (p t q : TPath) :
    bumped p t q = true ↔ ∃ s, s ≠ [] ∧ pfx s t = true ∧ q = p ++ s := by
  simp only [bumped, List.any_eq_true, Bool.and_eq_true, Bool.not_eq_true',
    List.isEmpty_eq_false, beq_iff_eq, mem_prefixes]
  constructor
  · rintro ⟨s, hmem, hne, hq⟩
    exact ⟨s, hne, hmem, hq⟩
  · rintro ⟨s, hne, hmem, hq⟩
    exact ⟨s, hmem, hne, hq⟩

/-- The tree state in which every position is clean except those the claim
accounts for: dirty positions form the set `A`, each carrying exactly one
copy. -/
def stOf (A : TPath → Bool) : TreeSt :=
  fun q => ⟨A q, if A q then 1 else 0⟩

/-- `A` is closed under ancestors (the dirty set of a real proxy tree is:
a node becomes dirty only by making its parent dirty too). -/
def prefixClosedB (A : TPath → Bool) : Prop :=
  ∀ q r, pfx q r = true → A r = true → A q = true

/-- Mid-bubble tree state: dirty set `A` (one copy each), plus the freshly
re-copied chain below the bubble's current position. -/
def stBubble (A : TPath → Bool) (p t : TPath) : TreeSt :=
  fun q => if bumped p t q then ⟨true, 1⟩ else stOf A q

theorem bumped_self (p t : TPath) : bumped p t p = false := by
  cases hb : bumped p t p
  · rfl
  · obtain ⟨s, hne, _, heq⟩ := (bumped_iff p t p).mp hb
    exact absurd heq (append_singleton_ne_self p s hne)

theorem bumped_snoc (l : TPath) (a : String) (t q : TPath) :
    bumped l (a :: t) q = true ↔ bumped (l ++ [a]) t q = true ∨ q = l ++ [a] := by
  rw [bumped_iff, bumped_iff]
  constructor
  · rintro ⟨s, hne, hp, hq⟩
    cases s with
    | nil => exact absurd rfl hne
    | cons x s' =>
      simp only [pfx, Bool.and_eq_true, beq_iff_eq] at hp
      obtain ⟨hxa, hs'⟩ := hp
      subst hxa
      cases s' with
      | nil => exact Or.inr (by simpa using hq)
      | cons y s'' =>
        refine Or.inl ⟨y :: s'', by simp, hs', ?_⟩
        simp only [hq, List.append_assoc, List.singleton_append]
  · rintro (⟨s, hne, hp, hq⟩ | hq)
    · refine ⟨a :: s, by simp, by simp [pfx, hp], ?_⟩
      simp only [hq, List.append_assoc, List.singleton_append]
    · exact ⟨[a], by simp, by simp [pfx, pfx_nil_left], by simpa using hq⟩

/-- When the bubble's current position is already dirty, the mid-bubble state
is exactly the claimed final state. -/
theorem stBubble_collapse (A : TPath → Bool) (hA : prefixClosedB A) (p t : TPath)
    (hside : ∀ s, pfx s t = true → s ≠ [] → A (p ++ s) = false)
    (hAp : A p = true) (q : TPath) :
    stBubble A p t q = stOf (fun r => A r || pfx r (p ++ t)) q := by
  unfold stBubble stOf
  cases hb : bumped p t q
  · have hcoll : (A q || pfx q (p ++ t)) = A q := by
      cases hq : pfx q (p ++ t)
      · simp
      · rcases pfx_append_cases p t hq with hl | ⟨s, hqs, hst⟩
        · simp [hA q p hl hAp]
        · cases hs : s.isEmpty
          · exfalso
            have : bumped p t q = true := (bumped_iff p t q).mpr
              ⟨s, by simpa using hs, hst, hqs⟩
            rw [this] at hb; cases hb
          · have hsnil : s = [] := by simpa using hs
            subst hsnil
            simp only [List.append_nil] at hqs
            subst hqs
            simp [hAp]
    simp [hcoll]
  · obtain ⟨s, hne, hst, hq⟩ := (bumped_iff p t q).mp hb
    have : pfx q (p ++ t) = true := by
      rw [hq, pfx_append_inner]; exact hst
    simp [this]

/-- The `onCopied` bubble, fully unrolled: arriving at position `p` with the
chain `p ++ s` (`s` a nonempty prefix of `t`) freshly re-copied, and no set
node strictly above the mutated position, it leaves the dirty set grown by
all ancestors of `p ++ t` and exactly one copy at each position the claim
accounts for. -/
theorem bubble_eq (K A : TPath → Bool) (hA : prefixClosedB A) :
    ∀ (p t : TPath) (f : TreeSt),
      (∀ q, pfx q (p ++ t) = true → q ≠ p ++ t → K q = false) →
      (∀ s, pfx s t = true → s ≠ [] → A (p ++ s) = false) →
      (∀ q, f q = stBubble A p t q) →
      t ≠ [] →
      bubble K f p = stOf (fun q => A q || pfx q (p ++ t)) := by
  intro p
  induction p using List.reverseRecOn with
  | nil =>
    intro t f hK hside hf ht
    have hKnil : K [] = false :=
      hK [] (pfx_nil_left _) (by simpa using (append_singleton_ne_self [] t ht))
    have hfnil : f [] = stOf A [] := by rw [hf]; simp [stBubble, bumped_self]
    rw [bubble.eq_def]
    simp only [hKnil, Bool.false_eq_true, if_false, hfnil, stOf, dite_eq_ite, if_pos rfl]
    cases hAnil : A []
    · simp only [Bool.false_eq_true, if_false, if_true]
      funext q
      dsimp only
      by_cases hq : q = []
      · subst hq
        simp [bump, hfnil, stOf, hAnil, pfx_nil_left]
      · rw [show bump f [] q = f q from by simp [bump, hq], hf q]
        unfold stBubble stOf
        cases hb : bumped [] t q
        · have hpf : pfx q t = false := by
            cases hpq : pfx q t
            · rfl
            · exfalso
              rcases pfx_append_cases [] t hpq with hl | ⟨s, hqs, hst⟩
              · exact hq ((pfx_nil_right q).mp hl)
              · have hb2 : bumped [] t q = true := (bumped_iff [] t q).mpr
                  ⟨s, by rintro rfl; exact hq (by simpa using hqs), hst, hqs⟩
                rw [hb2] at hb; cases hb
          simp [hpf]
        · obtain ⟨s, hne, hst, hqs⟩ := (bumped_iff [] t q).mp hb
          have hpt : pfx q t = true := by
            have : q = s := by simpa using hqs
            rw [this]; exact hst
          simp [hpt]
    · simp only [if_true]
      funext q
      rw [hf q]
      exact stBubble_collapse A hA [] t hside hAnil q
  | append_singleton l a ih =>
    intro t f hK hside hf ht
    have hne : l ++ [a] ≠ [] := by simp
    have hKp : K (l ++ [a]) = false := by
      refine hK (l ++ [a]) (pfx_append_self _ _) ?_
      simpa using (append_singleton_ne_self (l ++ [a]) t ht)
    have hfp : f (l ++ [a]) = stOf A (l ++ [a]) := by
      rw [hf]; simp [stBubble, bumped_self]
    rw [bubble.eq_def]
    simp only [hKp, Bool.false_eq_true, if_false, hfp, stOf, dite_eq_ite, if_neg hne]
    cases hAp : A (l ++ [a])
    · simp only [Bool.false_eq_true, if_false, List.dropLast_concat]
      show bubble K (bump f (l ++ [a])) l = _
      have hf' : ∀ q, bump f (l ++ [a]) q = stBubble A l (a :: t) q := by
        intro q
        unfold bump
        by_cases hq : q = l ++ [a]
        · subst hq
          rw [if_pos rfl, hfp]
          unfold stOf stBubble
          rw [hAp]
          have : bumped l (a :: t) (l ++ [a]) = true :=
            (bumped_snoc l a t _).mpr (Or.inr rfl)
          simp [this]
        · rw [if_neg hq, hf q]
          unfold stBubble
          have : bumped (l ++ [a]) t q = bumped l (a :: t) q := by
            cases hb : bumped l (a :: t) q
            · cases hb' : bumped (l ++ [a]) t q
              · rfl
              · exfalso
                have : bumped l (a :: t) q = true :=
                  (bumped_snoc l a t q).mpr (Or.inl hb')
                rw [this] at hb; cases hb
            · rcases (bumped_snoc l a t q).mp hb with hb' | hq'
              · exact hb'.symm ▸ rfl
              · exact absurd hq' hq
          rw [this]
      have hK' : ∀ q, pfx q (l ++ (a :: t)) = true → q ≠ l ++ (a :: t) → K q = false := by
        intro q h1 h2
        refine hK q ?_ ?_
        · simpa [List.append_assoc] using h1
        · simpa [List.append_assoc] using h2
      have hside' : ∀ s, pfx s (a :: t) = true → s ≠ [] → A (l ++ s) = false := by
        intro s hs hsne
        cases s with
        | nil => exact absurd rfl hsne
        | cons x s' =>
          simp only [pfx, Bool.and_eq_true, beq_iff_eq] at hs
          obtain ⟨hxa, hs'⟩ := hs
          subst hxa
          cases hs'e : s'.isEmpty
          · have := hside s' hs' (by simpa using hs'e)
            simpa [List.append_assoc] using this
          · have hnil : s' = [] := by simpa using hs'e
            subst hnil
            simpa using hAp
      have := ih (a :: t) (bump f (l ++ [a])) hK' hside' hf' (by simp)
      rw [this]
      funext q
      simp [List.append_assoc]
    · simp only [if_true]
      funext q
      rw [hf q]
      exact stBubble_collapse A hA (l ++ [a]) t hside hAp q

/-- One mutation performed on a tree whose dirty set is ancestor-closed and
whose paths cross no set node strictly above the mutated position: all
previously-clean ancestor-or-self positions of `p` gain their single copy,
everything else is untouched. -/
theorem write_eq (K A : TPath → Bool) (hA : prefixClosedB A) (p : TPath)
    (hK : ∀ q, pfx q p = true → q ≠ p → K q = false) :
    write K (stOf A) p = stOf (fun q => A q || pfx q p) := by
  unfold write
  cases hAp : A p
  · simp only [stOf, hAp, Bool.false_eq_true, if_false]
    by_cases hp : p = []
    · subst hp
      simp only [if_pos rfl]
      funext q
      by_cases hq : q = []
      · subst hq; simp [bump, stOf, hAp, pfx]
      · have hqn : pfx q [] = false := by
          cases q with
          | nil => exact absurd rfl hq
          | cons x xs => rfl
        simp [bump, hq, stOf, hqn]
    · rw [if_neg hp]
      obtain ⟨l, a, rfl⟩ : ∃ l x, p = l ++ [x] :=
        ⟨p.dropLast, p.getLast hp, (List.dropLast_append_getLast hp).symm⟩
      rw [List.dropLast_concat]
      show bubble K (bump (stOf A) (l ++ [a])) l = _
      have hside' : ∀ s, pfx s [a] = true → s ≠ [] → A (l ++ s) = false := by
        intro s hs hsne
        cases s with
        | nil => exact absurd rfl hsne
        | cons x s' =>
          simp only [pfx, Bool.and_eq_true, beq_iff_eq] at hs
          obtain ⟨hxa, hs'⟩ := hs
          subst hxa
          have : s' = [] := (pfx_nil_right s').mp hs'
          subst this
          exact hAp
      have hf' : ∀ q, bump (stOf A) (l ++ [a]) q = stBubble A l [a] q := by
        intro q
        unfold bump stBubble stOf
        by_cases hq : q = l ++ [a]
        · subst hq
          have hb : bumped l [a] (l ++ [a]) = true :=
            (bumped_iff l [a] (l ++ [a])).mpr ⟨[a], by simp, pfx_refl _, rfl⟩
          simp [hb, hAp]
        · have hb : bumped l [a] q = false := by
            cases hb' : bumped l [a] q
            · rfl
            · obtain ⟨s, hsne, hs, hqs⟩ := (bumped_iff l [a] q).mp hb'
              cases s with
              | nil => exact absurd rfl hsne
              | cons x s' =>
                simp only [pfx, Bool.and_eq_true, beq_iff_eq] at hs
                obtain ⟨hxa, hs'⟩ := hs
                subst hxa
                have : s' = [] := (pfx_nil_right s').mp hs'
                subst this
                exact absurd hqs hq
          simp [hq, hb]
      exact bubble_eq K A hA l [a] (bump (stOf A) (l ++ [a])) hK hside' hf' (by simp)
  · simp only [stOf, hAp, if_true]
    funext q
    cases hq : pfx q p
    · simp [stOf, hq]
    · simp [stOf, hq, hA q p hq hAp]

/-- The whole cycle, write by write: starting from a clean arena with an
ancestor-closed dirty set, the dirty set grows to the ancestors of the
mutated positions and each carries exactly one copy. -/
theorem writeAll_stOf (K : TPath → Bool) :
    ∀ (ps : List TPath) (A : TPath → Bool), prefixClosedB A →
      (∀ p ∈ ps, ∀ q, pfx q p = true → q ≠ p → K q = false) →
      writeAll K (stOf A) ps = stOf (fun q => A q || ancB ps q) := by
  intro ps
  induction ps with
  | nil =>
    intro A hA _
    funext q
    simp [writeAll, ancB, stOf]
  | cons p ps ih =>
    intro A hA hK
    have h1 : write K (stOf A) p = stOf (fun q => A q || pfx q p) :=
      write_eq K A hA p (hK p (by simp))
    have hA' : prefixClosedB (fun q => A q || pfx q p) := by
      intro q r hqr h
      simp only [Bool.or_eq_true] at h ⊢
      rcases h with h | h
      · exact Or.inl (hA q r hqr h)
      · exact Or.inr (pfx_trans hqr h)
    have h2 := ih (fun q => A q || pfx q p) hA' (fun p' hp' => hK p' (by simp [hp']))
    calc writeAll K (stOf A) (p :: ps)
        = writeAll K (write K (stOf A) p) ps := rfl
      _ = writeAll K (stOf (fun q => A q || pfx q p)) ps := by rw [h1]
      _ = stOf (fun q => (A q || pfx q p) || ancB ps q) := h2
      _ = stOf (fun q => A q || ancB (p :: ps) q) := by
          funext q
          simp [ancB, stOf, Bool.or_assoc]

/-- **C1 (amended)** — Copy-on-first-write away from unordered sets: during
one commit cycle starting from a clean draft tree, for every sequence of
mutations none of whose positions lies strictly below an unordered-set node,
every position that is an ancestor-or-self of some mutated position is
shallow-copied exactly once (its `onCopied` notification fires exactly once
per commit cycle) and is dirty, and every other position is never copied —
in particular the first mutation at a position copies that position and each
clean ancestor up to the root once, and any further mutation at the same
position before the next commit mutates the existing copy in place, adding
zero copies.  (At an unordered-set position the code intentionally re-copies
on every member bubble — see the counterexample.) -/
theorem restato_c1_amended (K : TPath → Bool) (ps : List TPath)
    (hK : ∀ p ∈ ps, ∀ q, pfx q p = true → q ≠ p → K q = false) (q : TPath) :
    (writeAll K freshTree ps q).copies = (if ancB ps q then 1 else 0) ∧
    (writeAll K freshTree ps q).mutated = ancB ps q := by
  have hfresh : freshTree = stOf (fun _ => false) := by
    funext r
    simp [freshTree, stOf]
  have h := writeAll_stOf K ps (fun _ => false) (fun _ _ _ h => by cases h) hK
  rw [hfresh, h]
  simp [stOf]

/-- Witness for **C1 (amended)**: a tree with no set nodes, the same position
`["a","b"]` mutated twice; the ancestor `["a"]` holds exactly one copy. -/
theorem restato_c1_amended_witness :
    (∀ p ∈ [["a", "b"], ["a", "b"]], ∀ q : TPath,
      pfx q p = true → q ≠ p → (fun _ : TPath => false) q = false) ∧
    ((writeAll (fun _ : TPath => false) freshTree [["a", "b"], ["a", "b"]] ["a"]).copies =
        (if ancB [["a", "b"], ["a", "b"]] ["a"] then 1 else 0) ∧
      (writeAll (fun _ : TPath => false) freshTree [["a", "b"], ["a", "b"]] ["a"]).mutated =
        ancB [["a", "b"], ["a", "b"]] ["a"]) :=
  ⟨fun _ _ _ _ _ => rfl,
    restato_c1_amended (fun _ => false) [["a", "b"], ["a", "b"]]
      (fun _ _ _ _ _ => rfl) ["a"]⟩

/-! ## Heap model of values and freezing (claims C5 and C8)

Freezing works on object identity, so values are modelled against an explicit
heap: a `JVal` is a primitive or a reference into a list of heap objects, and
a heap object carries its structural kind, its entries (keyed children) and
two flags: `frozen` (JS `Object.isFrozen`, or the neutralized state of a
collection) and `fmark` (the `symbols.freezable` marker a facade carries,
part_000 `toFreezableCollection`).  Recursive walks carry fuel and return
`none` when it runs out (the JS originals diverge on cyclic inputs). -/

/-- Structural kind of a heap object (dates carry no children and behave
like maps/sets for freezing; they are not needed by the claims). -/
inductive JKind : Type where
  | kobj
  | karr
  | kmap
  | kset
deriving DecidableEq, Repr

/-- A JS value: a primitive (opaque token) or a heap reference. -/
inductive JVal : Type where
  | prim (n : Nat)
  | ref (r : Nat)
deriving DecidableEq, Repr

/-- A heap object. -/
structure HObj : Type where
  kind : JKind
  entries : List (String × JVal)
  frozen : Bool
  fmark : Bool
deriving DecidableEq, Repr

/-- The heap: object `r` lives at index `r`. -/
abbrev Heap : Type := List HObj

/-- Dereference. -/
def getObj (h : Heap) (r : Nat) : Option HObj := h[r]?

/-- Replace the object at `r` (allocation never moves objects). -/
def setObjAt (h : Heap) (r : Nat) (o : HObj) : Heap := h.set r o

/-- Keyed update of an entry list (insertion order preserved). -/
def eset : List (String × JVal) → String → JVal → List (String × JVal)
  | [], k, v => [(k, v)]
  | (k', v') :: rest, k, v =>
    if k' = k then (k, v) :: rest else (k', v') :: eset rest k v

/-! ### Claim C5: isolation from source objects

`setChild` (`proxy.js` lines 263-283) passes every assigned value through
`proxify` (`proxy.js` lines 400-434) before it touches the target:
`proxify` shallow-freezes the value (`deepFreeze(value, true)`) and then
recursively proxifies every child, so every object reachable from the
assigned value is frozen before the assignment lands.

`deepFreeze(value, true)` ends in `freeze(toFreezable(value))` for
collections and `freeze(value)` otherwise; both come from `freezable.js`.
Modelled from the spec: `freezable.js` is absent from the sources; per spec
§4.2 ("the external object the caller originally constructed is no longer
usable for further direct mutation — it becomes the frozen facade") and the
repository tests (`Object.isFrozen(map)` is true and `map.set` throws on the
caller's original map after insertion), freezing neutralizes the original
object in place, which the model renders by setting its `frozen` flag.  The
extra facade object some variants allocate for the *stored* copy is not
modelled: the claim is about the caller's original reference. -/

mutual

/-- Heap effect of `proxify` on an externally constructed value: mark the
value frozen in place (`deepFreeze(value, true)`), then proxify every child
(`handle` inside `proxify`; the write-back `addOrSet` branch touches only
the proxy's copy, never the original object, so it has no effect on the
heap reachable from the original reference). -/
def proxifyFreeze : Nat → Heap → JVal → Option Heap
  | 0, _, _ => none
  | _ + 1, h, JVal.prim _ => some h
  | fuel + 1, h, JVal.ref r =>
    match getObj h r with
    | none => none
    | some o => proxifyChildren fuel (setObjAt h r { o with frozen := true }) o.entries

/-- Proxify each child value in turn, threading the heap. -/
def proxifyChildren : Nat → Heap → List (String × JVal) → Option Heap
  | _, h, [] => some h
  | fuel, h, (_, v) :: rest =>
    match proxifyFreeze fuel h v with
    | none => none
    | some h' => proxifyChildren fuel h' rest

end

/-- Reachability of heap object `r'` from a value (through entry lists). -/
inductive Reaches (h : Heap) : JVal → Nat → Prop where
  | here {r : Nat} {o : HObj} : getObj h r = some o → Reaches h (JVal.ref r) r
  | step {r : Nat} {o : HObj} {k : String} {v : JVal} {r' : Nat} :
      getObj h r = some o → (k, v) ∈ o.entries → Reaches h v r' →
      Reaches h (JVal.ref r) r'

/-- A direct mutation attempted through a raw reference, after the store has
adopted the value: on a frozen plain object or array the write is silently
ignored (host frozen-object semantics in non-strict code); on a neutralized
map or set the mutating method throws `Can not mutate frozen <kind>`; an
unfrozen object is updated. -/
def extWrite (h : Heap) (r : Nat) (k : String) (v : JVal) : Except String Heap :=
  match getObj h r with
  | none => Except.ok h
  | some o =>
    if o.frozen then
      match o.kind with
      | JKind.kmap => Except.error "Can not mutate frozen map"
      | JKind.kset => Except.error "Can not mutate frozen set"
      | _ => Except.ok h
    else Except.ok (setObjAt h r { o with entries := eset o.entries k v })

/-- Heaps of the same shape: same objects with the same kinds and entries,
the second possibly more frozen. -/
def SameShape (h h' : Heap) : Prop :=
  ∀ r : Nat,
    (getObj h r = none ∧ getObj h' r = none) ∨
    (∃ o b, getObj h r = some o ∧
      getObj h' r = some { o with frozen := o.frozen || b })

theorem sameShape_refl (h : Heap) : SameShape h h := by
  intro r
  cases ho : getObj h r with
  | none => exact Or.inl ⟨rfl, rfl⟩
  | some o => exact Or.inr ⟨o, false, rfl, by simp [ho]⟩

theorem sameShape_trans {h1 h2 h3 : Heap} (a : SameShape h1 h2) (b : SameShape h2 h3) :
    SameShape h1 h3 := by
  intro r
  rcases a r with ⟨n1, n2⟩ | ⟨o, x, ho, ho'⟩
  · rcases b r with ⟨_, n3⟩ | ⟨o, x, ho, _⟩
    · exact Or.inl ⟨n1, n3⟩
    · rw [n2] at ho; cases ho
  · rcases b r with ⟨n2, _⟩ | ⟨o2, y, ho2, ho2'⟩
    · rw [ho'] at n2; cases n2
    · rw [ho'] at ho2
      injection ho2 with ho2
      refine Or.inr ⟨o, x || y, ho, ?_⟩
      rw [← ho2] at ho2'
      simpa [Bool.or_assoc] using ho2'

theorem sameShape_setFrozen {h : Heap} {r0 : Nat} {o0 : HObj}
    (ho : getObj h r0 = some o0) :
    SameShape h (setObjAt h r0 { o0 with frozen := true }) := by
  intro r
  by_cases hr : r = r0
  · subst hr
    refine Or.inr ⟨o0, true, ho, ?_⟩
    have hlt : r < h.length := (List.getElem?_eq_some.mp ho).1
    simp [getObj, setObjAt, List.getElem?_set_self hlt]
  · cases hx : getObj h r with
    | none =>
      refine Or.inl ⟨rfl, ?_⟩
      simpa [getObj, setObjAt, List.getElem?_set_ne (Ne.symm hr)] using hx
    | some o =>
      refine Or.inr ⟨o, false, rfl, ?_⟩
      simp only [getObj, setObjAt, List.getElem?_set_ne (Ne.symm hr)]
      simpa using hx

/-- Witness heap before insertion: a plain object holding a primitive and a
map, none frozen (the caller's freshly built `src`). -/
def c5heap0 : Heap :=
  [⟨JKind.kobj, [("k", JVal.prim 1), ("m", JVal.ref 1)], false, false⟩,
    ⟨JKind.kmap, [("n", JVal.prim 2)], false, false⟩]

/-- The same heap after `setChild` proxified `src`: everything reachable is
frozen/neutralized. -/
def c5heap1 : Heap :=
  [⟨JKind.kobj, [("k", JVal.prim 1), ("m", JVal.ref 1)], true, false⟩,
    ⟨JKind.kmap, [("n", JVal.prim 2)], true, false⟩]

/-- `proxifyFreeze` and `proxifyChildren` only ever set `frozen` flags: the
heap keeps its shape. -/
theorem proxify_sameShape (fuel : Nat) :
    (∀ h v h', proxifyFreeze fuel h v = some h' → SameShape h h') ∧
    (∀ h es h', proxifyChildren fuel h es = some h' → SameShape h h') := by
  induction fuel with
  | zero =>
    constructor
    · intro h v h' hp
      simp [proxifyFreeze] at hp
    · intro h es h' hp
      cases es with
      | nil =>
        simp only [proxifyChildren, Option.some.injEq] at hp
        subst hp
        exact sameShape_refl h
      | cons e rest =>
        obtain ⟨k, v⟩ := e
        simp [proxifyChildren, proxifyFreeze] at hp
  | succ n ih =>
    have hA : ∀ h v h', proxifyFreeze (n + 1) h v = some h' → SameShape h h' := by
      intro h v h' hp
      match v with
      | JVal.prim m =>
        simp only [proxifyFreeze, Option.some.injEq] at hp
        subst hp
        exact sameShape_refl h
      | JVal.ref r =>
        unfold proxifyFreeze at hp
        cases ho : getObj h r with
        | none => rw [ho] at hp; cases hp
        | some o =>
          rw [ho] at hp
          exact sameShape_trans (sameShape_setFrozen ho) (ih.2 _ _ _ hp)
    refine ⟨hA, ?_⟩
    intro h es
    induction es generalizing h with
    | nil =>
      intro h' hp
      simp only [proxifyChildren, Option.some.injEq] at hp
      subst hp
      exact sameShape_refl h
    | cons e rest ihes =>
      obtain ⟨k, v⟩ := e
      intro h' hp
      unfold proxifyChildren at hp
      cases hpf : proxifyFreeze (n + 1) h v with
      | none => rw [hpf] at hp; cases hp
      | some h1 =>
        rw [hpf] at hp
        exact sameShape_trans (hA _ _ _ hpf) (ihes h1 h' hp)

/-- Reachability only depends on the heap's shape (forward transport). -/
theorem reaches_mono {h h' : Heap} (hs : SameShape h h') {v : JVal} {r : Nat}
    (hr : Reaches h v r) : Reaches h' v r := by
  induction hr with
  | here ho =>
    rcases hs _ with ⟨hn, _⟩ | ⟨o, b, ho1, ho2⟩
    · rw [ho] at hn; cases hn
    · exact Reaches.here ho2
  | step ho hmem _ ih =>
    rcases hs _ with ⟨hn, _⟩ | ⟨o, b, ho1, ho2⟩
    · rw [ho] at hn; cases hn
    · rw [ho] at ho1
      injection ho1 with ho1
      subst ho1
      exact Reaches.step ho2 hmem ih

/-- Reachability only depends on the heap's shape (backward transport). -/
theorem reaches_back {h h' : Heap} (hs : SameShape h h') {v : JVal} {r : Nat}
    (hr : Reaches h' v r) : Reaches h v r := by
  induction hr with
  | here ho =>
    rcases hs _ with ⟨_, hn⟩ | ⟨o, b, ho1, ho2⟩
    · rw [ho] at hn; cases hn
    · exact Reaches.here ho1
  | step ho hmem _ ih =>
    rcases hs _ with ⟨_, hn⟩ | ⟨o, b, ho1, ho2⟩
    · rw [ho] at hn; cases hn
    · rw [ho] at ho2
      injection ho2 with ho2
      rw [ho2] at hmem
      exact Reaches.step ho1 hmem ih

/-- Frozen flags survive shape-preserving steps. -/
theorem frozen_mono {h h' : Heap} (hs : SameShape h h') {r : Nat} {o : HObj}
    (ho : getObj h r = some o) (hf : o.frozen = true) :
    ∃ o', getObj h' r = some o' ∧ o'.frozen = true := by
  rcases hs r with ⟨hn, _⟩ | ⟨o1, b, ho1, ho2⟩
  · rw [ho] at hn; cases hn
  · rw [ho] at ho1
    injection ho1 with ho1
    subst ho1
    exact ⟨_, ho2, by simp [hf]⟩

/-- Core of C5: a successful `proxifyFreeze` leaves every object reachable
from the proxified value frozen. -/
theorem proxify_freezes (fuel : Nat) :
    (∀ h v h', proxifyFreeze fuel h v = some h' →
      ∀ r, Reaches h v r → ∃ o', getObj h' r = some o' ∧ o'.frozen = true) ∧
    (∀ h es h', proxifyChildren fuel h es = some h' →
      ∀ k v, (k, v) ∈ es → ∀ r, Reaches h v r →
        ∃ o', getObj h' r = some o' ∧ o'.frozen = true) := by
  induction fuel with
  | zero =>
    constructor
    · intro h v h' hp
      simp [proxifyFreeze] at hp
    · intro h es h' hp k v hmem
      cases es with
      | nil => cases hmem
      | cons e rest =>
        obtain ⟨k0, v0⟩ := e
        simp [proxifyChildren, proxifyFreeze] at hp
  | succ n ih =>
    have hA : ∀ h v h', proxifyFreeze (n + 1) h v = some h' →
        ∀ r, Reaches h v r → ∃ o', getObj h' r = some o' ∧ o'.frozen = true := by
      intro h v h' hp r hr
      match v with
      | JVal.prim m => cases hr
      | JVal.ref r0 =>
        unfold proxifyFreeze at hp
        cases ho : getObj h r0 with
        | none => rw [ho] at hp; cases hp
        | some o =>
          rw [ho] at hp
          have hs1 : SameShape h (setObjAt h r0 { o with frozen := true }) :=
            sameShape_setFrozen ho
          have hs2 : SameShape (setObjAt h r0 { o with frozen := true }) h' :=
            (proxify_sameShape n).2 _ _ _ hp
          cases hr with
          | here ho2 =>
            have hlt : r < h.length := (List.getElem?_eq_some.mp ho).1
            have hfroz : getObj (setObjAt h r { o with frozen := true }) r =
                some { o with frozen := true } := by
              simp [getObj, setObjAt, List.getElem?_set_self hlt]
            exact frozen_mono hs2 hfroz rfl
          | step ho2 hmem hsub =>
            rw [ho] at ho2
            injection ho2 with ho2
            subst ho2
            have hsub1 : Reaches (setObjAt h r0 { o with frozen := true }) _ r :=
              reaches_mono hs1 hsub
            exact ih.2 _ _ _ hp _ _ hmem r hsub1
    refine ⟨hA, ?_⟩
    intro h es
    induction es generalizing h with
    | nil =>
      intro h' _ k v hmem
      cases hmem
    | cons e rest ihes =>
      obtain ⟨k0, v0⟩ := e
      intro h' hp k v hmem r hr
      unfold proxifyChildren at hp
      cases hpf : proxifyFreeze (n + 1) h v0 with
      | none => rw [hpf] at hp; cases hp
      | some h1 =>
        rw [hpf] at hp
        rcases List.mem_cons.mp hmem with he | hrest
        · injection he with he1 he2
          subst he2
          have := hA _ _ _ hpf r hr
          obtain ⟨o', ho', hf'⟩ := this
          exact frozen_mono ((proxify_sameShape (n + 1)).2 _ _ _ hp) ho' hf'
        · have hr1 : Reaches h1 v r :=
            reaches_mono ((proxify_sameShape (n + 1)).1 _ _ _ hpf) hr
          exact ihes h1 h' hp k v hrest r hr1

/-- **C5** — Isolation from source objects: when an external value is
assigned into the state tree, `setChild` proxifies it before insertion,
which deep-freezes (neutralizes) every object reachable from the caller's
original reference; afterwards any mutation attempted through that original
reference either is silently ignored (plain objects/arrays) or throws the
frozen-collection error (maps/sets) — in both cases the heap, and hence
every later `select` over the stored state, is unchanged. -/
theorem restato_c5 (fuel : Nat) (h0 : Heap) (src : JVal) (h1 : Heap)
    (hp : proxifyFreeze fuel h0 src = some h1) (r : Nat) (hr : Reaches h1 src r)
    (k : String) (v : JVal) :
    (∃ o, getObj h1 r = some o ∧ o.frozen = true) ∧
    (extWrite h1 r k v = Except.ok h1 ∨
      ∃ msg, extWrite h1 r k v = Except.error msg) := by
  have hs : SameShape h0 h1 := by
    cases fuel with
    | zero => simp [proxifyFreeze] at hp
    | succ n => exact (proxify_sameShape (n + 1)).1 _ _ _ hp
  have hr0 : Reaches h0 src r := reaches_back hs hr
  have hfroz : ∃ o, getObj h1 r = some o ∧ o.frozen = true := by
    cases fuel with
    | zero => simp [proxifyFreeze] at hp
    | succ n => exact (proxify_freezes (n + 1)).1 _ _ _ hp r hr0
  obtain ⟨o, ho, hf⟩ := hfroz
  obtain ⟨ko, en, fr, fm⟩ := o
  have hfr : fr = true := hf
  subst hfr
  refine ⟨⟨⟨ko, en, true, fm⟩, ho, rfl⟩, ?_⟩
  cases ko with
  | kobj => exact Or.inl (by simp [extWrite, ho])
  | karr => exact Or.inl (by simp [extWrite, ho])
  | kmap => exact Or.inr ⟨"Can not mutate frozen map", by simp [extWrite, ho]⟩
  | kset => exact Or.inr ⟨"Can not mutate frozen set", by simp [extWrite, ho]⟩

/-- Witness for **C5**: `state.obj = src` with `src` an object holding a
nested map; afterwards `srcMap.set("n", …)` through the original reference
throws and the heap — hence `select(s => s.obj…)` — is unchanged. -/
theorem restato_c5_witness :
    proxifyFreeze 3 c5heap0 (JVal.ref 0) = some c5heap1 ∧
    Reaches c5heap1 (JVal.ref 0) 1 ∧
    ((∃ o, getObj c5heap1 1 = some o ∧ o.frozen = true) ∧
      (extWrite c5heap1 1 "n" (JVal.prim 9) = Except.ok c5heap1 ∨
        ∃ msg, extWrite c5heap1 1 "n" (JVal.prim 9) = Except.error msg)) := by
  have hp : proxifyFreeze 3 c5heap0 (JVal.ref 0) = some c5heap1 := by
    simp [proxifyFreeze, proxifyChildren, getObj, setObjAt, c5heap0, c5heap1]
  have hr : Reaches c5heap1 (JVal.ref 0) 1 :=
    Reaches.step (o := ⟨JKind.kobj, [("k", JVal.prim 1), ("m", JVal.ref 1)], true, false⟩)
      (k := "m") (v := JVal.ref 1)
      rfl (by simp) (Reaches.here (o := ⟨JKind.kmap, [("n", JVal.prim 2)], true, false⟩) rfl)
  exact ⟨hp, hr, restato_c5 3 c5heap0 (JVal.ref 0) c5heap1 hp 1 hr "n" (JVal.prim 9)⟩

/-! ### Claim C8: idempotent deep freeze

`deepFreeze` (`utils.js` lines 69-101) starts with `if
(!Object.isFrozen(frozen))` and returns an already-frozen value unchanged;
`toFreezableCollection` (part_000 lines 208-228) returns an
already-faceted collection (carrying the `symbols.freezable` marker)
unchanged rather than wrapping a second facade.  The embedding follows
`deepFreeze`/`freezeCollection` of `utils.js`/part_000: plain objects and
arrays are frozen in place after their entries; for a map the frozen child
values are written back in place (`coll.set`); for a set whose frozen
elements differ a rebuilt set (`setCopy`) is allocated; the result is passed
through `toFreezableCollection` and then frozen (`freeze(toFreezable(x))`),
where allocating the facade is `toFreezableCollection`'s non-marked branch. -/

/-- `freeze(toFreezableCollection(x))`: an already-faceted collection (the
`symbols.freezable` marker set) is returned unchanged and frozen in place; a
bare collection gets a fresh facade object, which is then frozen. -/
def toFreezableU (h : Heap) (r : Nat) : Option (Heap × JVal) :=
  match getObj h r with
  | none => none
  | some o =>
    if o.fmark then some (setObjAt h r { o with frozen := true }, JVal.ref r)
    else some (h ++ [⟨o.kind, o.entries, true, true⟩], JVal.ref h.length)

mutual

/-- `deepFreeze(value, shallow)` from `utils.js`, on the heap: returns the
(possibly new) stored value. -/
def deepFreezeU : Nat → Heap → JVal → Bool → Option (Heap × JVal)
  | 0, _, _, _ => none
  | _ + 1, h, JVal.prim n, _ => some (h, JVal.prim n)
  | fuel + 1, h, JVal.ref r, shallow =>
    match getObj h r with
    | none => none
    | some o =>
      if o.frozen then some (h, JVal.ref r)
      else
        match o.kind with
        | JKind.kobj | JKind.karr =>
          match (if shallow then some (h, o.entries, false) else freezeVals fuel h o.entries) with
          | none => none
          | some (h1, es, _) =>
            some (setObjAt h1 r ⟨o.kind, es, true, o.fmark⟩, JVal.ref r)
        | JKind.kmap | JKind.kset =>
          -- freezeCollection(frozen, shallow)
          match (if shallow then some (h, o.entries, false) else freezeVals fuel h o.entries) with
          | none => none
          | some (h1, es, d) =>
            -- map: `coll.set(key, newVal)` updates the original in place;
            -- set with a changed element: rebuilt as a fresh set (`setCopy`)
            let hr2 : Heap × Nat :=
              if o.kind = JKind.kset && d then (h1 ++ [⟨o.kind, es, false, false⟩], h1.length)
              else (setObjAt h1 r { o with entries := es }, r)
            -- `freeze(toFreezable(frozen))`
            toFreezableU hr2.1 hr2.2

/-- Deep-freeze every child value, reporting whether any came back with a
different identity (`hasDiff`). -/
def freezeVals : Nat → Heap → List (String × JVal) → Option (Heap × List (String × JVal) × Bool)
  | _, h, [] => some (h, [], false)
  | fuel, h, (k, v) :: rest =>
    match deepFreezeU fuel h v false with
    | none => none
    | some (h1, v') =>
      match freezeVals fuel h1 rest with
      | none => none
      | some (h2, rest', d) => some (h2, (k, v') :: rest', d || decide (v' ≠ v))

end

/-- Freezing never removes objects: the heap only grows. -/
theorem deepFreezeU_len (fuel : Nat) :
    (∀ h v s h' v', deepFreezeU fuel h v s = some (h', v') → h.length ≤ h'.length) ∧
    (∀ h es h' es' d, freezeVals fuel h es = some (h', es', d) → h.length ≤ h'.length) := by
  induction fuel with
  | zero =>
    constructor
    · intro h v s h' v' hp
      simp [deepFreezeU] at hp
    · intro h es h' es' d hp
      cases es with
      | nil =>
        simp only [freezeVals, Option.some.injEq, Prod.mk.injEq] at hp
        rw [hp.1]
      | cons e rest =>
        obtain ⟨k, v⟩ := e
        simp [freezeVals, deepFreezeU] at hp
  | succ n ih =>
    have hA : ∀ h v s h' v', deepFreezeU (n + 1) h v s = some (h', v') → h.length ≤ h'.length := by
      intro h v s h' v' hp
      match v with
      | JVal.prim m =>
        simp only [deepFreezeU, Option.some.injEq, Prod.mk.injEq] at hp
        rw [hp.1]
      | JVal.ref r =>
        unfold deepFreezeU at hp
        cases ho : getObj h r with
        | none => rw [ho] at hp; cases hp
        | some o =>
          rw [ho] at hp
          obtain ⟨ko, en, fr, fm⟩ := o
          cases fr with
          | true =>
            simp only [if_true] at hp
            injection hp with hp
            injection hp with hp1 hp2
            rw [hp1]
          | false =>
            simp only [Bool.false_eq_true, if_false] at hp
            cases hes : (if s = true then some (h, en, false) else freezeVals n h en) with
            | none => cases ko <;> simp [hes] at hp
            | some t =>
              obtain ⟨h1, es, d⟩ := t
              have hlen : h.length ≤ h1.length := by
                cases hs' : s
                · rw [hs'] at hes
                  simp only [Bool.false_eq_true, if_false] at hes
                  exact ih.2 h en h1 es d hes
                · rw [hs'] at hes
                  simp at hes
                  simp [hes.1]
              have hfin : ∀ hh rr, toFreezableU hh rr = some (h', v') → hh.length ≤ h'.length := by
                intro hh rr hq
                unfold toFreezableU at hq
                cases hoo : getObj hh rr with
                | none => rw [hoo] at hq; cases hq
                | some oo =>
                  rw [hoo] at hq
                  dsimp only at hq
                  by_cases hm : oo.fmark = true
                  · rw [if_pos hm] at hq
                    injection hq with hq
                    injection hq with hq1 hq2
                    rw [← hq1]
                    simp [setObjAt]
                  · rw [if_neg hm] at hq
                    injection hq with hq
                    injection hq with hq1 hq2
                    rw [← hq1]
                    simp
              cases ko with
              | kobj =>
                rw [hes] at hp
                simp only at hp
                injection hp with hp
                injection hp with hp1 hp2
                rw [← hp1]
                simpa [setObjAt] using hlen
              | karr =>
                rw [hes] at hp
                simp only at hp
                injection hp with hp
                injection hp with hp1 hp2
                rw [← hp1]
                simpa [setObjAt] using hlen
              | kmap =>
                rw [hes] at hp
                simp only at hp
                refine le_trans hlen ?_
                have := hfin _ _ hp
                simpa [setObjAt] using this
              | kset =>
                rw [hes] at hp
                simp only at hp
                refine le_trans hlen (le_trans ?_ (hfin _ _ hp))
                cases hd : d
                · subst hd
                  simp [setObjAt]
                · subst hd
                  simp [setObjAt]
    refine ⟨hA, ?_⟩
    intro h es
    induction es generalizing h with
    | nil =>
      intro h' es' d hp
      simp only [freezeVals, Option.some.injEq, Prod.mk.injEq] at hp
      rw [hp.1]
    | cons e rest ihes =>
      obtain ⟨k, v⟩ := e
      intro h' es' d hp
      unfold freezeVals at hp
      cases h1e : deepFreezeU (n + 1) h v false with
      | none => rw [h1e] at hp; cases hp
      | some t1 =>
        obtain ⟨h1, v1⟩ := t1
        rw [h1e] at hp
        dsimp only at hp
        cases h2e : freezeVals (n + 1) h1 rest with
        | none => rw [h2e] at hp; cases hp
        | some t2 =>
          obtain ⟨h2, es2, d2⟩ := t2
          rw [h2e] at hp
          injection hp with hp
          injection hp with hp1 hp2
          rw [← hp1]
          exact le_trans (hA h v false h1 v1 h1e) (ihes h1 h2 es2 d2 h2e)

/-- `toFreezableU` preserves existing objects below the allocation point and
yields a frozen, facade-marked collection. -/
theorem toFreezableU_frozen (h : Heap) (r : Nat) (h' : Heap) (v' : JVal)
    (hp : toFreezableU h r = some (h', v')) :
    ∃ r' o', v' = JVal.ref r' ∧ getObj h' r' = some o' ∧ o'.frozen = true ∧ o'.fmark = true := by
  unfold toFreezableU at hp
  cases ho : getObj h r with
  | none => rw [ho] at hp; cases hp
  | some o =>
    rw [ho] at hp
    dsimp only at hp
    by_cases hm : o.fmark = true
    · rw [if_pos hm] at hp
      injection hp with hp
      injection hp with hp1 hp2
      subst hp1
      have hlt : r < h.length := (List.getElem?_eq_some.mp ho).1
      refine ⟨r, { o with frozen := true }, hp2.symm, ?_, rfl, hm⟩
      simp [getObj, setObjAt, List.getElem?_set_self hlt]
    · rw [if_neg hm] at hp
      injection hp with hp
      injection hp with hp1 hp2
      subst hp1
      refine ⟨h.length, ⟨o.kind, o.entries, true, true⟩, hp2.symm, ?_, rfl, rfl⟩
      simp [getObj]

/-- A successful `deepFreezeU` hands back a primitive or a reference to a
frozen object; when the input was not already frozen and is a map or set,
the result additionally carries the facade marker. -/
theorem deepFreezeU_root_frozen (fuel : Nat) (h : Heap) (v : JVal) (s : Bool)
    (h' : Heap) (v' : JVal) (hp : deepFreezeU fuel h v s = some (h', v')) :
    (∃ n, v' = JVal.prim n) ∨
    (∃ r o, v' = JVal.ref r ∧ getObj h' r = some o ∧ o.frozen = true) := by
  match fuel, v with
  | 0, _ => simp [deepFreezeU] at hp
  | fuel + 1, JVal.prim n =>
    simp only [deepFreezeU, Option.some.injEq, Prod.mk.injEq] at hp
    exact Or.inl ⟨n, hp.2.symm⟩
  | fuel + 1, JVal.ref r =>
    unfold deepFreezeU at hp
    cases ho : getObj h r with
    | none => rw [ho] at hp; cases hp
    | some o =>
      rw [ho] at hp
      obtain ⟨ko, en, fr, fm⟩ := o
      cases fr with
      | true =>
        simp only [if_true] at hp
        injection hp with hp
        injection hp with hp1 hp2
        subst hp1
        exact Or.inr ⟨r, ⟨ko, en, true, fm⟩, hp2.symm, ho, rfl⟩
      | false =>
        simp only [Bool.false_eq_true, if_false] at hp
        have hlt : r < h.length := (List.getElem?_eq_some.mp ho).1
        cases hes : (if s = true then some (h, en, false) else freezeVals fuel h en) with
        | none =>
          cases ko <;> simp [hes] at hp
        | some t =>
          obtain ⟨h1, es, d⟩ := t
          have hlen : h.length ≤ h1.length := by
            cases hs' : s
            · rw [hs'] at hes
              simp only [Bool.false_eq_true, if_false] at hes
              exact (deepFreezeU_len fuel).2 h en h1 es d hes
            · rw [hs'] at hes
              simp at hes
              simp [hes.1]
          have hlt1 : r < h1.length := lt_of_lt_of_le hlt hlen
          cases ko with
          | kobj =>
            rw [hes] at hp
            simp only at hp
            injection hp with hp
            injection hp with hp1 hp2
            subst hp1
            refine Or.inr ⟨r, ⟨JKind.kobj, es, true, fm⟩, hp2.symm, ?_, rfl⟩
            simp [getObj, setObjAt, List.getElem?_set_self hlt1]
          | karr =>
            rw [hes] at hp
            simp only at hp
            injection hp with hp
            injection hp with hp1 hp2
            subst hp1
            refine Or.inr ⟨r, ⟨JKind.karr, es, true, fm⟩, hp2.symm, ?_, rfl⟩
            simp [getObj, setObjAt, List.getElem?_set_self hlt1]
          | kmap =>
            rw [hes] at hp
            simp only at hp
            rcases toFreezableU_frozen _ _ _ _ hp with ⟨r', o', hv', ho', hf', _⟩
            exact Or.inr ⟨r', o', hv', ho', hf'⟩
          | kset =>
            rw [hes] at hp
            simp only at hp
            rcases toFreezableU_frozen _ _ _ _ hp with ⟨r', o', hv', ho', hf', _⟩
            exact Or.inr ⟨r', o', hv', ho', hf'⟩

/-- Writing back the object already stored at `r` leaves the heap unchanged. -/
theorem setObjAt_same (h : Heap) (r : Nat) (o : HObj) (ho : getObj h r = some o) :
    setObjAt h r o = h := by
  apply List.ext_getElem?
  intro i
  by_cases hir : i = r
  · subst hir
    rw [setObjAt, List.getElem?_set_self (List.getElem?_eq_some.mp ho).1]
    exact ho.symm
  · rw [setObjAt, List.getElem?_set_ne (fun he => hir he.symm)]

/-- **C8** — Idempotent freeze: a value returned by `deepFreeze` is already
frozen, so applying `deepFreeze` to it again returns it unchanged — same
heap, same reference, no new allocation (`if (!Object.isFrozen(frozen))`,
`utils.js` line 72) — and re-running `toFreezableCollection` on a stored
map/set facade returns the facade itself rather than wrapping a second
facade around it (the `symbols.freezable` marker check, part_000 lines
209-211).  Freezing twice is therefore behaviorally identical to freezing
once. -/
theorem restato_c8 (fuel g : Nat) (h : Heap) (v : JVal) (s : Bool)
    (h' : Heap) (v' : JVal) (hp : deepFreezeU fuel h v s = some (h', v')) :
    deepFreezeU (g + 1) h' v' s = some (h', v') ∧
    (∀ r o, v' = JVal.ref r → getObj h' r = some o → o.fmark = true →
      toFreezableU h' r = some (h', JVal.ref r)) := by
  rcases deepFreezeU_root_frozen fuel h v s h' v' hp with ⟨n, hv'⟩ | ⟨r, o, hv', ho, hf⟩
  · subst hv'
    constructor
    · simp [deepFreezeU]
    · intro r o hv'
      cases hv'
  · subst hv'
    constructor
    · unfold deepFreezeU
      rw [ho]
      dsimp only
      rw [if_pos hf]
    · intro r' o' hv' ho' hm'
      injection hv' with hrr
      subst hrr
      rw [ho] at ho'
      injection ho' with ho'
      subst ho'
      unfold toFreezableU
      rw [ho]
      dsimp only
      rw [if_pos hm']
      have hoo : ({ o with frozen := true } : HObj) = o := by
        obtain ⟨ko, en, fr, fm⟩ := o
        simp only at hf
        rw [hf]
      rw [hoo, setObjAt_same h' r o ho]

/-- Witness heap for C8: a bare unordered map with one primitive entry. -/
def c8heap0 : Heap := [⟨JKind.kmap, [("n", JVal.prim 2)], false, false⟩]

/-- The heap after one `deepFreeze`: the stored value is the frozen,
facade-marked collection allocated at index 1. -/
def c8heap1 : Heap :=
  [⟨JKind.kmap, [("n", JVal.prim 2)], false, false⟩,
    ⟨JKind.kmap, [("n", JVal.prim 2)], true, true⟩]

/-- Witness for **C8**: deep-freezing a map and then deep-freezing the
result returns the result unchanged, and re-faceting it allocates nothing. -/
theorem restato_c8_witness :
    deepFreezeU 3 c8heap0 (JVal.ref 0) false = some (c8heap1, JVal.ref 1) ∧
    (deepFreezeU (3 + 1) c8heap1 (JVal.ref 1) false = some (c8heap1, JVal.ref 1) ∧
      (∀ r o, JVal.ref 1 = JVal.ref r → getObj c8heap1 r = some o → o.fmark = true →
        toFreezableU c8heap1 r = some (c8heap1, JVal.ref r))) := by
  have hp : deepFreezeU 3 c8heap0 (JVal.ref 0) false = some (c8heap1, JVal.ref 1) := by
    simp [deepFreezeU, freezeVals, toFreezableU, getObj, setObjAt, c8heap0, c8heap1]
  exact ⟨hp, restato_c8 3 3 c8heap0 (JVal.ref 0) false c8heap1 (JVal.ref 1) hp⟩

/-! ## Claim C6: the frozen facade raises on mutation

`freezeCollection` (part_000 lines 152-189) builds the facade: every
prototype method is bound to the hidden original collection
(`toFreezableCollection`), and then the mutating methods — `add` for a set,
`set` for a map, plus `delete` and `clear` — are overridden with `forbidden`
(part_000 lines 181-188), which throws
`` `Can not mutate frozen ${getTypeOf(this)}` `` (lines 195-197); since the
facade's prototype is the original `Map.prototype`/`Set.prototype`,
`getTypeOf` yields `"map"`/`"set"`. -/

/-- Collection kinds the facade is built for. -/
inductive CKind : Type where
  | cmap
  | cset
deriving DecidableEq, Repr

/-- `getTypeOf(this)` on the facade. -/
def kindName : CKind → String
  | CKind.cmap => "map"
  | CKind.cset => "set"

/-- The hidden original collection: its kind and contents (a set stores
member keys; a map stores key-value pairs). -/
structure FCollection : Type where
  kind : CKind
  items : List (String × Nat)
deriving DecidableEq, Repr

/-- The operations a caller can invoke on a collection. -/
inductive CollOp : Type where
  | opGet (k : String)
  | opHas (k : String)
  | opSize
  | opSet (k : String) (v : Nat)
  | opAdd (k : String)
  | opDelete (k : String)
  | opClear
deriving DecidableEq, Repr

/-- The method name an operation dispatches through. -/
def opName : CollOp → String
  | CollOp.opGet _ => "get"
  | CollOp.opHas _ => "has"
  | CollOp.opSize => "size"
  | CollOp.opSet _ _ => "set"
  | CollOp.opAdd _ => "add"
  | CollOp.opDelete _ => "delete"
  | CollOp.opClear => "clear"

/-- Whether the operation mutates the collection. -/
def CollOp.mutating : CollOp → Bool
  | CollOp.opSet _ _ | CollOp.opAdd _ | CollOp.opDelete _ | CollOp.opClear => true
  | _ => false

/-- Whether the kind exposes the operation (`get`/`set` are map methods,
`add` is a set method). -/
def CollOp.appliesTo : CollOp → CKind → Bool
  | CollOp.opGet _, k => k = CKind.cmap
  | CollOp.opSet _ _, k => k = CKind.cmap
  | CollOp.opAdd _, k => k = CKind.cset
  | _, _ => true

/-- An operation's result. -/
inductive CollAns : Type where
  | aval (v : Option Nat)
  | abool (b : Bool)
  | asize (n : Nat)
  | aunit
deriving DecidableEq, Repr

/-- Keyed lookup in the hidden contents. -/
def alookup : List (String × Nat) → String → Option Nat
  | [], _ => none
  | (k', v') :: rest, k => if k' = k then some v' else alookup rest k

/-- Keyed update of the hidden contents. -/
def eset' : List (String × Nat) → String → Nat → List (String × Nat)
  | [], k, v => [(k, v)]
  | (k', v') :: rest, k, v =>
    if k' = k then (k, v) :: rest else (k', v') :: eset' rest k v

/-- The prototype methods, run on the hidden original collection. -/
def rawApply (c : FCollection) : CollOp → FCollection × CollAns
  | CollOp.opGet k => (c, CollAns.aval (alookup c.items k))
  | CollOp.opHas k => (c, CollAns.abool (alookup c.items k).isSome)
  | CollOp.opSize => (c, CollAns.asize c.items.length)
  | CollOp.opSet k v =>
    ({ c with items := eset' c.items k v }, CollAns.aunit)
  | CollOp.opAdd k =>
    ({ c with items := if (alookup c.items k).isSome then c.items else c.items ++ [(k, 0)] },
      CollAns.aunit)
  | CollOp.opDelete k =>
    ({ c with items := c.items.filter (fun e => e.1 ≠ k) },
      CollAns.abool (alookup c.items k).isSome)
  | CollOp.opClear => ({ c with items := [] }, CollAns.aunit)

/-- The method names `freezeCollection` overrides with `forbidden`
(part_000 lines 184-187): `add` or `set` depending on the kind, `delete`,
`clear`. -/
def forbiddenNames (k : CKind) : List String :=
  [if k = CKind.cset then "add" else "set", "delete", "clear"]

/-- `forbidden` (part_000 lines 195-197). -/
def forbidden (c : FCollection) : String :=
  "Can not mutate frozen " ++ kindName c.kind

/-- Invoking a method on the frozen facade: the overridden names throw
`forbidden`; every other method is the prototype method bound to the hidden
original. -/
def facadeApply (c : FCollection) (op : CollOp) : Except String (FCollection × CollAns) :=
  if opName op ∈ forbiddenNames c.kind then Except.error (forbidden c)
  else Except.ok (rawApply c op)

/-- **C6** — Frozen facade raises on mutation: for every frozen map or set
and every operation its kind exposes, the facade throws the descriptive
error naming the kind — `"Can not mutate frozen map"` / `"Can not mutate
frozen set"` — from every mutating operation (`add`/`set`/`delete`/`clear`),
and serves every non-mutating operation by delegating to the hidden original
collection (in particular it keeps type-checking as the same kind). -/
theorem restato_c6 (c : FCollection) (op : CollOp)
    (happ : op.appliesTo c.kind = true) :
    (op.mutating = true →
      facadeApply c op = Except.error ("Can not mutate frozen " ++ kindName c.kind)) ∧
    (op.mutating = false →
      facadeApply c op = Except.ok (rawApply c op)) := by
  obtain ⟨k, items⟩ := c
  cases op <;> cases k <;>
    simp [facadeApply, forbiddenNames, opName, CollOp.mutating, CollOp.appliesTo,
      forbidden, kindName] at happ ⊢

/-- Witness for **C6**: `add` on a frozen set facade throws
`"Can not mutate frozen set"`, while `has` still answers from the hidden
original. -/
theorem restato_c6_witness :
    (CollOp.opAdd "y").appliesTo (FCollection.mk CKind.cset [("x", 0)]).kind = true ∧
    ((CollOp.opAdd "y").mutating = true →
      facadeApply ⟨CKind.cset, [("x", 0)]⟩ (CollOp.opAdd "y") =
        Except.error ("Can not mutate frozen " ++ kindName CKind.cset)) ∧
    ((CollOp.opAdd "y").mutating = false →
      facadeApply ⟨CKind.cset, [("x", 0)]⟩ (CollOp.opAdd "y") =
        Except.ok (rawApply ⟨CKind.cset, [("x", 0)]⟩ (CollOp.opAdd "y"))) :=
  ⟨by decide, restato_c6 ⟨CKind.cset, [("x", 0)]⟩ (CollOp.opAdd "y") (by decide)⟩

end Restato
